import Mathlib

/-!
Verification model of the journaled key-value storage core of the
linera-protocol repository: the journaling layer
(`linera-views/src/backends/journaling.rs`) over an inner store, and
parts of the RocksDB backend (`linera-views/src/backends/rocks_db.rs`).

Bytes are modelled as `List Nat`, the inner store state as an
association list from keys to values.  The inner store's simplified
batch type (`S::Batch`, a `SimplifiedBatch` from `batch.rs`, which is
not part of the sources at hand) is modelled from the spec: after
`from_batch` conversion a batch consists of a list of deletions and a
list of insertions (prefix deletions are expanded through the
`DeletePrefixExpander`), applied deletions first, then insertions.
Inner-store writes may fail; a write schedule (`List Bool`, one entry
consumed per backend write, empty meaning success) models this.
-/

/-- Byte strings (each entry is intended as a byte value). -/
abbrev Bytes := List Nat

/-- Observable state of the inner key-value store: an association list. -/
abbrev KVState := List (Bytes × Bytes)

/-- Point lookup in the store (first binding wins). -/
def kvGet : KVState → Bytes → Option Bytes
  | [], _ => none
  | (a, b) :: rest, key => if a = key then some b else kvGet rest key

/-- Remove a key from the store. -/
def kvDelete : KVState → Bytes → KVState
  | [], _ => []
  | (a, b) :: rest, key =>
    if a = key then kvDelete rest key else (a, b) :: kvDelete rest key

/-- Insert or overwrite a key in the store. -/
def kvPut (st : KVState) (key value : Bytes) : KVState :=
  (key, value) :: kvDelete st key

/-- A single operation of a simplified batch: a deletion or an insertion. -/
inductive SOp
  | del (key : Bytes)
  | ins (key : Bytes) (value : Bytes)
deriving DecidableEq

/-- The key an operation touches. -/
def SOp.key : SOp → Bytes
  | .del k => k
  | .ins k _ => k

/-- Modelled from the spec: the inner store's batch form (`S::Batch`,
a `SimplifiedBatch` after `from_batch` conversion): a list of
deletions and a list of insertions; prefix deletions have been
expanded into plain deletions. -/
structure SBatch where
  deletions : List Bytes
  insertions : List (Bytes × Bytes)
deriving DecidableEq

/-- The operations of a simplified batch in execution order:
deletions first, then insertions. -/
def SBatch.ops (b : SBatch) : List SOp :=
  b.deletions.map SOp.del ++ b.insertions.map (fun kv => SOp.ins kv.1 kv.2)

/-- `add_delete` / `add_insert` of the simplified batch. -/
def SBatch.add (b : SBatch) : SOp → SBatch
  | .del k => ⟨b.deletions ++ [k], b.insertions⟩
  | .ins k v => ⟨b.deletions, b.insertions ++ [(k, v)]⟩

/-- Number of operations of the batch (`SimplifiedBatch::len`). -/
def SBatch.len (b : SBatch) : Nat :=
  b.deletions.length + b.insertions.length

/-- Build a simplified batch from an operation list via `add`. -/
def sbOfOps (l : List SOp) : SBatch :=
  l.foldl SBatch.add ⟨[], []⟩

/-- Apply one operation to the store. -/
def applySOp (st : KVState) : SOp → KVState
  | .del k => kvDelete st k
  | .ins k v => kvPut st k v

/-- Apply a list of operations in order. -/
def applyOps (st : KVState) (l : List SOp) : KVState :=
  l.foldl applySOp st

/-- Apply a simplified batch: deletions first, then insertions, as one
atomic inner-store write. -/
def applySB (st : KVState) (b : SBatch) : KVState :=
  applyOps st b.ops

/-- Fuel-driven ULEB128 encoder (the fuel only serves structural
recursion; it is never exhausted when it starts at least at `n`). -/
def encNatAux : Nat → Nat → Bytes
  | 0, n => [n % 128]
  | fuel + 1, n => if n < 128 then [n] else (128 + n % 128) :: encNatAux fuel (n / 128)

/-- Modelled from the spec: the length-prefixed canonical binary codec
(BCS) used for journal blocks; sequence lengths are ULEB128 encoded. -/
def encNat (n : Nat) : Bytes := encNatAux (n + 1) n

/-- Decoder for `encNat`; returns the value and the remaining input. -/
def decNat : Bytes → Option (Nat × Bytes)
  | [] => none
  | b :: rest =>
    if b < 128 then some (b, rest)
    else
      match decNat rest with
      | some (m, r) => if b < 256 then some ((b - 128) + 128 * m, r) else none
      | none => none

/-- Length-prefixed byte string (BCS `Vec<u8>`). -/
def encBytes (bs : Bytes) : Bytes :=
  encNat bs.length ++ bs

/-- Decoder for `encBytes`. -/
def decBytes (s : Bytes) : Option (Bytes × Bytes) :=
  match decNat s with
  | none => none
  | some (n, r) => if n ≤ r.length then some (r.take n, r.drop n) else none

/-- Serialized size of one batch operation inside a journal block. -/
def sopSize : SOp → Nat
  | .del k => (encBytes k).length
  | .ins k v => (encBytes k).length + (encBytes v).length

/-- Total byte size of a batch (`SimplifiedBatch::num_bytes`). -/
def SBatch.numBytes (b : SBatch) : Nat :=
  (b.ops.map sopSize).sum

/-- Serialization overhead of a batch (`SimplifiedBatch::overhead_size`):
the two sequence length prefixes. -/
def sbOverhead (b : SBatch) : Nat :=
  (encNat b.deletions.length).length + (encNat b.insertions.length).length

/-- BCS serialization of a simplified batch (a journal block). -/
def encodeSB (b : SBatch) : Bytes :=
  encNat b.deletions.length ++ (b.deletions.map encBytes).flatten ++
    encNat b.insertions.length ++
    (b.insertions.map (fun kv => encBytes kv.1 ++ encBytes kv.2)).flatten

/-- Read `n` length-prefixed byte strings. -/
def readSeq : Nat → Bytes → Option (List Bytes × Bytes)
  | 0, s => some ([], s)
  | n + 1, s =>
    match decBytes s with
    | none => none
    | some (x, s') =>
      match readSeq n s' with
      | none => none
      | some (xs, s'') => some (x :: xs, s'')

/-- Read `n` length-prefixed key-value pairs. -/
def readSeqKV : Nat → Bytes → Option (List (Bytes × Bytes) × Bytes)
  | 0, s => some ([], s)
  | n + 1, s =>
    match decBytes s with
    | none => none
    | some (k, s') =>
      match decBytes s' with
      | none => none
      | some (v, s'') =>
        match readSeqKV n s'' with
        | none => none
        | some (kvs, s3) => some ((k, v) :: kvs, s3)

/-- BCS deserialization of a journal block; rejects trailing bytes. -/
def decodeSB (s : Bytes) : Option SBatch :=
  match decNat s with
  | none => none
  | some (nd, s1) =>
    match readSeq nd s1 with
    | none => none
    | some (ds, s2) =>
      match decNat s2 with
      | none => none
      | some (ni, s3) =>
        match readSeqKV ni s3 with
        | none => none
        | some (is, s4) => if s4 = [] then some ⟨ds, is⟩ else none

/-- BCS serialization of a `u32` (fixed-width little endian), as used
by `get_journaling_key` and for the `JournalHeader`. -/
def encU32 (n : Nat) : Bytes :=
  [n % 256, n / 256 % 256, n / 65536 % 256, n / 16777216 % 256]

/-- BCS deserialization of a `u32`: exactly four bytes, little endian. -/
def decodeU32 : Bytes → Option Nat
  | [a, b, c, d] =>
    if a < 256 ∧ b < 256 ∧ c < 256 ∧ d < 256 then
      some (a + 256 * b + 65536 * c + 16777216 * d)
    else none
  | _ => none

/-- The tag reserved for the journal (`JOURNAL_TAG`). -/
def JOURNAL_TAG : Nat := 0

/-- `get_journaling_key(tag, pos)`: `[JOURNAL_TAG, tag] ++ bcs(pos)`.
In the source this returns a `Result` but BCS serialization of a `u32`
into a vector cannot fail. -/
def get_journaling_key (tag : Nat) (pos : Nat) : Bytes :=
  JOURNAL_TAG :: tag :: encU32 pos

/-- The key of the journal header (`KeyTag::Journal = 1`, position 0). -/
def headerKey : Bytes := get_journaling_key 1 0

/-- The key of journal block `i` (`KeyTag::Entry = 2`). -/
def entryKey (i : Nat) : Bytes := get_journaling_key 2 i

/-- A key outside the journal's reserved tag-0 range (view keys use
tags at least `MIN_VIEW_TAG = 1`). -/
def userKey (k : Bytes) : Bool := k.head? != some JOURNAL_TAG

/-- All keys of a batch are outside the journal key range. -/
def userSB (b : SBatch) : Bool :=
  b.deletions.all userKey && b.insertions.all (fun kv => userKey kv.1)

/-- The keys touched by a batch are pairwise distinct (an invariant of
the simplified batches produced by `from_batch`). -/
def keysNodup (b : SBatch) : Prop :=
  (b.ops.map SOp.key).Nodup

/-- Errors of the journaling layer (`JournalConsistencyError` plus an
opaque failure of the inner store). -/
inductive JErr
  | failureToRetrieveJournalBlock
  | journalRequiresExclusiveAccess
  | backendFailure
deriving DecidableEq

/-- Result of a store operation: outcome, final observable state, and
the remaining write schedule. -/
structure Outcome where
  res : Option JErr
  st : KVState
  sched : List Bool
deriving DecidableEq

/-- Constants of `write_journal`: the journal key length (`key_len`),
the serialized header size (`header_value_len`), and their sum
(`journal_len_upper_bound`). -/
def key_len : Nat := headerKey.length

/-- Serialized size of `JournalHeader::default()` (a `u32`). -/
def header_value_len : Nat := (encU32 0).length

/-- Upper bound for the cost of the journal-header bookkeeping write. -/
def journal_len_upper_bound : Nat := key_len + header_value_len

/-- Size limits of the inner store (`S::MAX_BATCH_SIZE`,
`S::MAX_BATCH_TOTAL_SIZE`, `S::MAX_VALUE_SIZE`). -/
structure Params where
  maxBatchSize : Nat
  maxBatchTotalSize : Nat
  maxValueSize : Nat
deriving DecidableEq

/-- `max_block_size` of `write_journal`. -/
def max_block_size (p : Params) : Nat :=
  min p.maxValueSize (p.maxBatchTotalSize - key_len - journal_len_upper_bound)

/-- Accumulator of the `write_journal` loop.  `blocks` records the
flushed block operation lists (the source only keeps their count
`block_count = blocks.length`); `txs` the flushed transaction
batches. -/
structure PlanAcc where
  blockOps : List SOp
  blockSize : Nat
  blocks : List (List SOp)
  txIns : List (Bytes × Bytes)
  txSize : Nat
  txs : List SBatch
deriving DecidableEq

/-- Block flush of `write_journal`: serialize the block, insert it at
the next entry key into the transaction batch. -/
def planFlushBlock (acc : PlanAcc) : PlanAcc :=
  let bb : SBatch := sbOfOps acc.blockOps
  let fullSize := acc.blockSize + sbOverhead bb
  { blockOps := []
    blockSize := 0
    blocks := acc.blocks ++ [acc.blockOps]
    txIns := acc.txIns ++ [(entryKey acc.blocks.length, encodeSB bb)]
    txSize := acc.txSize + fullSize + key_len
    txs := acc.txs }

/-- Transaction flush of `write_journal`: emit the transaction batch
(one backend write of pure insertions). -/
def planFlushTx (acc : PlanAcc) : PlanAcc :=
  { acc with txIns := [], txSize := 0, txs := acc.txs ++ [⟨[], acc.txIns⟩] }

/-- `write_next_value`: move the next operation into the current
block, updating the block size. -/
def planAddOp (acc : PlanAcc) (op : SOp) : PlanAcc :=
  { acc with blockOps := acc.blockOps ++ [op], blockSize := acc.blockSize + sopSize op }

/-- The flush decisions of one loop iteration of `write_journal`,
computed exactly as in the source: on exhausted input or a full
transaction batch both flush; otherwise the predicted size of the
block extended with the next operation (`next_batch_size`) drives the
decisions. -/
def planFlags (p : Params) (acc1 : PlanAcc) : List SOp → Bool × Bool
  | [] => (true, true)
  | next :: _ =>
    if acc1.txIns.length = p.maxBatchSize - 1 then (true, true)
    else
      let nbs := acc1.blockSize + sopSize next +
        sbOverhead (sbOfOps (acc1.blockOps ++ [next]))
      let nts := acc1.txSize + nbs + key_len
      let tf := decide (nts > p.maxBatchTotalSize)
      let bf := tf || decide (acc1.blockOps.length = p.maxBatchSize - 2) ||
        decide (nbs > max_block_size p)
      (bf, tf)

/-- Perform the flushes an iteration decided on. -/
def planApply (flags : Bool × Bool) (acc1 : PlanAcc) : PlanAcc :=
  if flags.2 then planFlushTx (if flags.1 then planFlushBlock acc1 else acc1)
  else (if flags.1 then planFlushBlock acc1 else acc1)

/-- The streaming loop of `write_journal`, transcribed from the
source. -/
def planLoop (p : Params) : List SOp → PlanAcc → PlanAcc
  | [], acc => acc
  | op :: rest, acc =>
    planLoop p rest (planApply (planFlags p (planAddOp acc op) rest) (planAddOp acc op))

/-- The plan of `write_journal` for a batch: all flushed blocks and
transaction batches. -/
def mkPlan (p : Params) (b : SBatch) : PlanAcc :=
  planLoop p b.ops ⟨[], 0, [], [], 0, []⟩

/-- The sequence of backend writes performed by `write_journal`: the
flushed transaction batches followed by the header commit (only when
at least one block was written). -/
def planWrites (p : Params) (b : SBatch) : List SBatch :=
  let acc := mkPlan p b
  acc.txs ++
    (if acc.blocks.length > 0 then [⟨[], [(headerKey, encU32 acc.blocks.length)]⟩] else [])

/-- Execute a sequence of backend writes under the write schedule;
stops at the first failed write, leaving the state as it was before
that write. -/
def execWrites : KVState → List Bool → List SBatch → Outcome
  | st, sched, [] => ⟨none, st, sched⟩
  | st, sched, w :: rest =>
    if sched.headD true then execWrites (applySB st w) sched.tail rest
    else ⟨some .backendFailure, st, sched.tail⟩

/-- `write_journal`: persist the blocks and commit the header. -/
def write_journal (p : Params) (st : KVState) (sched : List Bool) (b : SBatch) : Outcome :=
  execWrites st sched (planWrites p b)

/-- The batch executed for one journal block during resolution: the
block's operations, then `add_delete(block_key)`, then either
`add_insert(header_key, bcs(header))` (decremented count still
positive) or `add_delete(header_key)`. -/
def resolutionBatch (blk : SBatch) (m : Nat) : SBatch :=
  (blk.add (.del (entryKey m))).add
    (if m > 0 then .ins headerKey (encU32 m) else .del headerKey)

/-- `coherently_resolve_journal`, transcribed from the source: while
`block_count > 0`, read the block at index `block_count - 1`, append
the bookkeeping operations, write the batch atomically, decrement. -/
def coherently_resolve_journal (st : KVState) (sched : List Bool) : Nat → Outcome
  | 0 => ⟨none, st, sched⟩
  | m + 1 =>
    match kvGet st (entryKey m) with
    | none => ⟨some .failureToRetrieveJournalBlock, st, sched⟩
    | some bytes =>
      match decodeSB bytes with
      | none => ⟨some .failureToRetrieveJournalBlock, st, sched⟩
      | some blk =>
        if sched.headD true then
          coherently_resolve_journal (applySB st (resolutionBatch blk m)) sched.tail m
        else ⟨some .backendFailure, st, sched.tail⟩

/-- `is_fastpath_feasible`: the batch fits one inner transaction. -/
def is_fastpath_feasible (p : Params) (b : SBatch) : Bool :=
  decide (b.len ≤ p.maxBatchSize) && decide (b.numBytes ≤ p.maxBatchTotalSize)

/-- The fast path of `write_batch`: one direct inner-store write. -/
def fastPathWrite (st : KVState) (sched : List Bool) (b : SBatch) : Outcome :=
  if sched.headD true then ⟨none, applySB st b, sched.tail⟩
  else ⟨some .backendFailure, st, sched.tail⟩

/-- The slow path of `write_batch`: refuse without exclusive access,
otherwise write the journal and resolve it. -/
def slowPath (p : Params) (has_exclusive_access : Bool) (st : KVState)
    (sched : List Bool) (b : SBatch) : Outcome :=
  if !has_exclusive_access then ⟨some .journalRequiresExclusiveAccess, st, sched⟩
  else
    let o := write_journal p st sched b
    match o.res with
    | some e => ⟨some e, o.st, o.sched⟩
    | none => coherently_resolve_journal o.st o.sched (mkPlan p b).blocks.length

/-- `JournalingKeyValueStore::write_batch`, transcribed from the
source (after `from_batch` conversion of the input batch). -/
def write_batch (p : Params) (has_exclusive_access : Bool) (st : KVState)
    (sched : List Bool) (b : SBatch) : Outcome :=
  if is_fastpath_feasible p b then fastPathWrite st sched b
  else slowPath p has_exclusive_access st sched b

/-- `JournalingKeyValueStore::clear_journal`: read the header; if
present, resolve the journal. -/
def clear_journal (st : KVState) (sched : List Bool) : Outcome :=
  match kvGet st headerKey with
  | none => ⟨none, st, sched⟩
  | some bytes =>
    match decodeU32 bytes with
    | none => ⟨some .failureToRetrieveJournalBlock, st, sched⟩
    | some n => coherently_resolve_journal st sched n

/-- Errors of the RocksDB backend (`RocksDbStoreInternalError`,
restricted to the variants the model can produce). -/
inductive RocksDbStoreInternalError
  | StoreAlreadyExists
  | KeyTooLong
  | InvalidNamespace
deriving DecidableEq

/-- `char::is_ascii_alphanumeric` of Rust. -/
def is_ascii_alphanumeric (c : Char) : Bool :=
  (decide ('0' ≤ c) && decide (c ≤ '9')) ||
    (decide ('A' ≤ c) && decide (c ≤ 'Z')) ||
    (decide ('a' ≤ c) && decide (c ≤ 'z'))

/-- `RocksDbDatabaseInternal::check_namespace`: every character must
be ASCII alphanumeric or an underscore. -/
def check_namespace (ns : String) : Except RocksDbStoreInternalError Unit :=
  if ns.toList.all (fun c => is_ascii_alphanumeric c || c == '_') then .ok ()
  else .error .InvalidNamespace

/-- `ROOT_KEY_DOMAIN`: the domain byte prepended to every root key. -/
def ROOT_KEY_DOMAIN : Bytes := [0]

/-- `STORED_ROOT_KEYS_PREFIX` (renamed): the domain byte of the
stored-root-keys index. -/
def STORED_ROOT_KEYS : Nat := 1

/-- `MAX_KEY_SIZE` of the RocksDB backend. -/
def MAX_KEY_SIZE : Nat := 8 * 1024 * 1024 - 400

/-- `check_key_size` of the RocksDB backend. -/
def check_key_size (k : Bytes) : Bool := decide (k.length ≤ MAX_KEY_SIZE)

/-- The part of a RocksDB store handle the model needs: its start
key, prepended to every user key. -/
structure RocksDbStoreModel where
  start_key : Bytes
deriving DecidableEq

/-- `RocksDbDatabaseInternal::open_shared`: always succeeds, the
store's start key is the root-key domain byte followed by the root
key. -/
def rocks_open_shared (root_key : Bytes) :
    Except RocksDbStoreInternalError RocksDbStoreModel :=
  .ok ⟨ROOT_KEY_DOMAIN ++ root_key⟩

/-- `RocksDbDatabaseInternal::open_exclusive`: delegates to
`open_shared` unchanged. -/
def rocks_open_exclusive (root_key : Bytes) :
    Except RocksDbStoreInternalError RocksDbStoreModel :=
  rocks_open_shared root_key

/-- A journaling store handle as produced by the journaling database
wrapper: the inner store plus the exclusivity flag. -/
structure JournalingStoreModel where
  start_key : Bytes
  has_exclusive_access : Bool
deriving DecidableEq

/-- `JournalingKeyValueDatabase::open_shared`: wraps the inner open
with `has_exclusive_access = false`. -/
def journaling_open_shared (root_key : Bytes) :
    Except RocksDbStoreInternalError JournalingStoreModel :=
  match rocks_open_shared root_key with
  | .ok s => .ok ⟨s.start_key, false⟩
  | .error e => .error e

/-- `JournalingKeyValueDatabase::open_exclusive`: wraps the inner open
with `has_exclusive_access = true`. -/
def journaling_open_exclusive (root_key : Bytes) :
    Except RocksDbStoreInternalError JournalingStoreModel :=
  match rocks_open_exclusive root_key with
  | .ok s => .ok ⟨s.start_key, true⟩
  | .error e => .error e

/-- Modelled from the spec: `get_upper_bound_option` from
`common.rs` (not among the sources at hand): the least key strictly
above every key extending the argument, obtained by stripping
trailing `255` bytes and incrementing the last remaining byte;
`none` when the key consists only of `255` bytes. -/
def get_upper_bound_option (key : Bytes) : Option Bytes :=
  match ((key.reverse.dropWhile (fun b => decide (255 ≤ b))).reverse).getLast? with
  | none => none
  | some last =>
    some (((key.reverse.dropWhile (fun b => decide (255 ≤ b))).reverse).dropLast ++ [last + 1])

/-- The write operations of a user-facing `Batch` (`WriteOperation`). -/
inductive WriteOperation
  | Put (key value : Bytes)
  | Delete (key : Bytes)
  | DeletePfx (key_pfx : Bytes)
deriving DecidableEq

/-- The primitive operations of a RocksDB write batch. -/
inductive LowOp
  | lput (key value : Bytes)
  | ldelete (key : Bytes)
  | ldeleteRange (from_key to_key : Bytes)
deriving DecidableEq

/-- Loop of `RocksDbStoreExecutor::write_batch_internal` over the
operations; `none` models a panic at the `expect` computing the
exclusive upper bound of a prefix range. -/
def writeBatchOps (start_key : Bytes) :
    List WriteOperation → Option (Except RocksDbStoreInternalError (List LowOp))
  | [] => some (.ok [])
  | .Delete key :: rest =>
    if check_key_size key then
      match writeBatchOps start_key rest with
      | none => none
      | some (.error e) => some (.error e)
      | some (.ok l) => some (.ok (.ldelete (start_key ++ key) :: l))
    else some (.error .KeyTooLong)
  | .Put key value :: rest =>
    if check_key_size key then
      match writeBatchOps start_key rest with
      | none => none
      | some (.error e) => some (.error e)
      | some (.ok l) => some (.ok (.lput (start_key ++ key) value :: l))
    else some (.error .KeyTooLong)
  | .DeletePfx key_pfx :: rest =>
    if check_key_size key_pfx then
      match get_upper_bound_option (start_key ++ key_pfx) with
      | none => none
      | some upper =>
        match writeBatchOps start_key rest with
        | none => none
        | some (.error e) => some (.error e)
        | some (.ok l) => some (.ok (.ldeleteRange (start_key ++ key_pfx) upper :: l))
    else some (.error .KeyTooLong)

/-- `RocksDbStoreExecutor::write_batch_internal`: translate the batch
operations, then append the stored-root-keys marker write when this
is the store's first write; `none` models a panic (the `expect` on
the upper bound, or indexing `full_key[0]` of an empty start key). -/
def write_batch_internal (start_key : Bytes) (ops : List WriteOperation)
    (write_root_key : Bool) :
    Option (Except RocksDbStoreInternalError (List LowOp)) :=
  match writeBatchOps start_key ops with
  | none => none
  | some (.error e) => some (.error e)
  | some (.ok l) =>
    if write_root_key then
      match start_key with
      | [] => none
      | _ :: rest => some (.ok (l ++ [.lput (STORED_ROOT_KEYS :: rest) []]))
    else some (.ok l)

/-- The last operation of a list that touches a key, if any. -/
def lastTouch (l : List SOp) (k : Bytes) : Option SOp :=
  (l.filter (fun op => decide (op.key = k))).getLast?

/-- The value a key holds after the last operation touching it, given
the value it held before. -/
def touchVal : Option SOp → Option Bytes → Option Bytes
  | some (.ins _ v), _ => some v
  | some (.del _), _ => none
  | none, d => d

/-- An operation list in simplified-batch shape: all deletions before
all insertions. -/
def Shaped (l : List SOp) : Prop :=
  ∃ (ds : List Bytes) (is : List (Bytes × Bytes)),
    l = ds.map SOp.del ++ is.map (fun kv => SOp.ins kv.1 kv.2)

/-- Whether a key has the shape of a journal block entry key. -/
def isEntryKey : Bytes → Bool
  | 0 :: 2 :: rest => decide (rest.length = 4)
  | _ => false

/-- Every decodable journal block stored in the state touches only
keys outside the journal key range (true of the blocks written by
`write_journal`). -/
def journalBlocksUser (st : KVState) : Bool :=
  st.all fun kv =>
    !isEntryKey kv.1 ||
      (match decodeSB kv.2 with
       | some blk => userSB blk
       | none => true)

/-- The operations of the first `m` journal blocks in resolution
order: highest index first. -/
def revFlatten (chunks : List (List SOp)) (m : Nat) : List SOp :=
  ((chunks.take m).reverse).flatten

/-- Store limits exhibiting the transaction-size overrun of
`write_journal`: `MAX_BATCH_SIZE = 100`, `MAX_BATCH_TOTAL_SIZE = 100`,
`MAX_VALUE_SIZE = 84` (so `max_block_size = 84`). -/
def overflowParams : Params := ⟨100, 100, 84⟩

/-- A batch of six insertions, each far below the per-operation limits
stated in the source's own analysis, that makes `write_journal` flush
a transaction batch larger than `MAX_BATCH_TOTAL_SIZE`. -/
def overflowBatch : SBatch :=
  ⟨[], [([1], List.replicate 21 7), ([2], List.replicate 21 7), ([3], List.replicate 37 7),
        ([4], List.replicate 1 7), ([5], List.replicate 21 7), ([6], List.replicate 21 7)]⟩

/-- Invariant of the `write_journal` loop accumulator: the flushed
transaction insertions (in order) are exactly one insertion per
flushed block, at consecutive entry keys, holding the serialized
blocks; transactions contain no deletions; blocks are nonempty. -/
def PlanInv (a : PlanAcc) : Prop :=
  (a.txs.map SBatch.insertions).flatten ++ a.txIns =
    (List.range a.blocks.length).map
      (fun i => (entryKey i, encodeSB (sbOfOps (a.blocks.getD i [])))) ∧
  (∀ t ∈ a.txs, t.deletions = []) ∧
  (∀ bl ∈ a.blocks, bl ≠ [])

/-- An ordinary journal block writing one user key. -/
def cexInnerBlock : Bytes := encodeSB ⟨[], [([1], [9])]⟩

/-- An adversarial journal block that re-creates the journal itself:
it re-inserts the header (count 1) and re-inserts block 0 with new
contents. -/
def cexBlock : SBatch := ⟨[], [(headerKey, encU32 1), (entryKey 0, cexInnerBlock)]⟩

/-- A store state satisfying the journal shape invariant (header with
`block_count = 1`, block 0 present and decodable) on which
`clear_journal` is not idempotent. -/
def cexSt : KVState := [(headerKey, encU32 1), (entryKey 0, encodeSB cexBlock)]

/-- Store limits small enough to force `write_batch` onto the slow
(journaled) path for a modest batch. -/
def slowParams : Params := ⟨4, 30, 30⟩

/-- A user batch (one deletion, three insertions) that exceeds
`MAX_BATCH_TOTAL_SIZE = 30` and so takes the journaled slow path. -/
def slowBatch : SBatch :=
  ⟨[[9, 9]], [([1], List.replicate 10 7), ([2], List.replicate 10 7),
              ([3], List.replicate 10 7)]⟩

/-- A store state whose only key is a stale journal header: the fast
path can succeed on it without ever clearing that header. -/
def dirtyHeaderSt : KVState := [(headerKey, encU32 1)]

/-! ### Lemmas: point lookups and the last-touch characterization -/

theorem kvGet_kvDelete (st : KVState) (k k' : Bytes) :
    kvGet (kvDelete st k) k' = if k' = k then none else kvGet st k' := by
  induction st with
  | nil => simp [kvDelete, kvGet, ite_self]
  | cons kv rest ih =>
    obtain ⟨a, b⟩ := kv
    by_cases hak : a = k
    · subst hak
      by_cases hk : k' = a
      · subst hk
        simp [kvDelete, kvGet, ih]
      · have haa : ¬ a = k' := fun h => hk h.symm
        simp [kvDelete, kvGet, ih, hk, haa]
    · by_cases hak' : a = k'
      · subst hak'
        simp [kvDelete, kvGet, ih, hak]
      · simp [kvDelete, kvGet, ih, hak, hak']

theorem kvGet_kvPut (st : KVState) (k v k' : Bytes) :
    kvGet (kvPut st k v) k' = if k' = k then some v else kvGet st k' := by
  by_cases hk : k' = k
  · subst hk
    simp [kvPut, kvGet]
  · have hkk : ¬ k = k' := fun h => hk h.symm
    simp [kvPut, kvGet, hkk, kvGet_kvDelete, hk]

theorem kvGet_applySOp (st : KVState) (op : SOp) (k : Bytes) :
    kvGet (applySOp st op) k =
      if op.key = k then touchVal (some op) (kvGet st k) else kvGet st k := by
  cases op with
  | del a =>
    by_cases h : a = k
    · subst h
      simp [applySOp, SOp.key, touchVal, kvGet_kvDelete]
    · have h2 : ¬ k = a := fun hh => h hh.symm
      simp [applySOp, SOp.key, touchVal, kvGet_kvDelete, h, h2]
  | ins a v =>
    by_cases h : a = k
    · subst h
      simp [applySOp, SOp.key, touchVal, kvGet_kvPut]
    · have h2 : ¬ k = a := fun hh => h hh.symm
      simp [applySOp, SOp.key, touchVal, kvGet_kvPut, h, h2]

theorem getLast?_cons (a : α) (l : List α) :
    (a :: l).getLast? =
      (match l.getLast? with | some x => some x | none => some a) := by
  induction l generalizing a with
  | nil => rfl
  | cons b t ih =>
    rw [List.getLast?_cons_cons, ih b]
    cases t.getLast? <;> rfl

theorem lastTouch_nil (k : Bytes) : lastTouch [] k = none := rfl

theorem lastTouch_cons (op : SOp) (l : List SOp) (k : Bytes) :
    lastTouch (op :: l) k =
      if op.key = k then
        (match lastTouch l k with | some x => some x | none => some op)
      else lastTouch l k := by
  by_cases h : op.key = k
  · rw [if_pos h]
    show ((op :: l).filter fun o => decide (o.key = k)).getLast? = _
    rw [List.filter_cons, if_pos (by simp [h]), getLast?_cons]
    simp only [lastTouch]
    cases (List.filter (fun o => decide (o.key = k)) l).getLast? <;> rfl
  · rw [if_neg h]
    show ((op :: l).filter fun o => decide (o.key = k)).getLast? = _
    rw [List.filter_cons, if_neg (by simp [h])]
    simp only [lastTouch]

theorem touchVal_none (d : Option Bytes) : touchVal none d = d := rfl

theorem kvGet_applyOps (l : List SOp) (st : KVState) (k : Bytes) :
    kvGet (applyOps st l) k = touchVal (lastTouch l k) (kvGet st k) := by
  induction l generalizing st with
  | nil => simp [applyOps, lastTouch, touchVal]
  | cons op rest ih =>
    have hstep : applyOps st (op :: rest) = applyOps (applySOp st op) rest := rfl
    rw [hstep, ih, lastTouch_cons]
    by_cases h : op.key = k
    · rw [if_pos h]
      cases hlt : lastTouch rest k with
      | none => rw [kvGet_applySOp, if_pos h, touchVal_none]
      | some o => cases o <;> rfl
    · rw [if_neg h, kvGet_applySOp, if_neg h]

theorem lastTouch_append (l₁ l₂ : List SOp) (k : Bytes) :
    lastTouch (l₁ ++ l₂) k =
      (match lastTouch l₂ k with | some x => some x | none => lastTouch l₁ k) := by
  induction l₁ with
  | nil => cases h : lastTouch l₂ k <;> simp [lastTouch_nil, h]
  | cons op rest ih =>
    rw [List.cons_append, lastTouch_cons, lastTouch_cons, ih]
    by_cases h : op.key = k
    · rw [if_pos h, if_pos h]
      cases h2 : lastTouch l₂ k <;> cases h1 : lastTouch rest k <;> rfl
    · rw [if_neg h, if_neg h]

theorem lastTouch_eq_none (l : List SOp) (k : Bytes)
    (h : ∀ op ∈ l, op.key ≠ k) : lastTouch l k = none := by
  induction l with
  | nil => rfl
  | cons op rest ih =>
    rw [lastTouch_cons, if_neg (h op (by simp))]
    exact ih fun o ho => h o (by simp [ho])

theorem kvGet_applyOps_of_untouched (l : List SOp) (st : KVState) (k : Bytes)
    (h : ∀ op ∈ l, op.key ≠ k) : kvGet (applyOps st l) k = kvGet st k := by
  rw [kvGet_applyOps, lastTouch_eq_none l k h, touchVal_none]

/-! ### Helper lemmas for the claim theorems -/

theorem userSB_ops_key (b : SBatch) (hb : userSB b = true) :
    ∀ op ∈ b.ops, userKey op.key = true := by
  intro op ho
  unfold userSB at hb
  rw [Bool.and_eq_true, List.all_eq_true, List.all_eq_true] at hb
  unfold SBatch.ops at ho
  rcases List.mem_append.1 ho with h | h
  · obtain ⟨k, hk, rfl⟩ := List.mem_map.1 h
    exact hb.1 k hk
  · obtain ⟨kv, hkv, rfl⟩ := List.mem_map.1 h
    exact hb.2 kv hkv

theorem userKey_ne (k k' : Bytes) (h : userKey k = true) (h' : userKey k' = false) :
    k ≠ k' := by
  intro he
  rw [he, h'] at h
  exact Bool.false_ne_true h

theorem userKey_headerKey : userKey headerKey = false := by decide

theorem userKey_entryKey (i : Nat) : userKey (entryKey i) = false := rfl

/-! ### C7: journal key encoding -/

/-- C7 counterexample: the block-entry key for index 1 is the tag bytes
followed by the little-endian serialization of the index, not the
big-endian one claimed. -/
theorem get_journaling_key_not_bigendian :
    get_journaling_key 2 1 = [0, 2, 1, 0, 0, 0] ∧
      get_journaling_key 2 1 ≠ [0, 2] ++ [0, 0, 0, 1] := by
  refine ⟨by decide, by decide⟩

/-- C7 (amended): `get_journaling_key` produces `[0, 2]` followed by
the four little-endian base-256 digits of the index (BCS serializes a
`u32` little endian); the header key is `[0, 1]` followed by the
`u32` value `0`, and the index is recoverable from the digits. -/
theorem get_journaling_key_littleendian (idx : Nat) :
    get_journaling_key 2 idx =
      [0, 2] ++ [idx % 256, idx / 256 % 256, idx / 65536 % 256, idx / 16777216 % 256] ∧
    get_journaling_key 1 0 = [0, 1, 0, 0, 0, 0] ∧
    headerKey = [0, 1, 0, 0, 0, 0] ∧
    decodeU32 (encU32 idx) = some (idx % 4294967296) := by
  refine ⟨rfl, rfl, rfl, ?_⟩
  have h4 : decodeU32 (encU32 idx) =
      if idx % 256 < 256 ∧ idx / 256 % 256 < 256 ∧ idx / 65536 % 256 < 256 ∧
          idx / 16777216 % 256 < 256 then
        some (idx % 256 + 256 * (idx / 256 % 256) + 65536 * (idx / 65536 % 256) +
          16777216 * (idx / 16777216 % 256))
      else none := rfl
  rw [h4, if_pos ⟨Nat.mod_lt _ (by omega), Nat.mod_lt _ (by omega), Nat.mod_lt _ (by omega),
    Nat.mod_lt _ (by omega)⟩]
  congr 1
  omega

/-! ### C9: namespace validation -/

theorem check_namespace_char (c : Char) :
    (is_ascii_alphanumeric c || c == '_') = true ↔
      ('0' ≤ c ∧ c ≤ '9') ∨ ('A' ≤ c ∧ c ≤ 'Z') ∨ ('a' ≤ c ∧ c ≤ 'z') ∨ c = '_' := by
  unfold is_ascii_alphanumeric
  simp [or_assoc]

/-- C9: namespace validation succeeds exactly when every character is
an ASCII digit, an ASCII letter, or an underscore; otherwise it fails
with `InvalidNamespace`. -/
theorem check_namespace_spec (ns : String) :
    check_namespace ns =
      (if ∀ c ∈ ns.toList,
          ('0' ≤ c ∧ c ≤ '9') ∨ ('A' ≤ c ∧ c ≤ 'Z') ∨ ('a' ≤ c ∧ c ≤ 'z') ∨ c = '_'
       then .ok () else .error .InvalidNamespace) := by
  by_cases h : ∀ c ∈ ns.toList,
      ('0' ≤ c ∧ c ≤ '9') ∨ ('A' ≤ c ∧ c ≤ 'Z') ∨ ('a' ≤ c ∧ c ≤ 'z') ∨ c = '_'
  · rw [if_pos h]
    unfold check_namespace
    rw [if_pos]
    rw [List.all_eq_true]
    intro c hc
    exact (check_namespace_char c).2 (h c hc)
  · rw [if_neg h]
    unfold check_namespace
    rw [if_neg]
    intro hall
    exact h fun c hc => (check_namespace_char c).1 (List.all_eq_true.1 hall c hc)

/-! ### C8: open_exclusive performs no enforcement -/

/-- C8 counterexample: `open_exclusive` succeeds unconditionally (it
delegates to `open_shared`), so a second call for the same root key
also returns an exclusive handle; nothing is tracked or refused. -/
theorem open_exclusive_no_enforcement_counterexample :
    journaling_open_exclusive [7] = .ok ⟨[0, 7], true⟩ ∧
      rocks_open_exclusive [7] = rocks_open_shared [7] := by
  exact ⟨rfl, rfl⟩

/-- C8 (amended): exclusive opens are advisory only: the database-level
`open_exclusive` is exactly `open_shared` and always succeeds; the
journaling wrapper merely records `has_exclusive_access = true` on the
returned handle.  No second-open is ever refused. -/
theorem open_exclusive_advisory (root_key : Bytes) :
    rocks_open_exclusive root_key = rocks_open_shared root_key ∧
      journaling_open_exclusive root_key = .ok ⟨ROOT_KEY_DOMAIN ++ root_key, true⟩ ∧
      journaling_open_shared root_key = .ok ⟨ROOT_KEY_DOMAIN ++ root_key, false⟩ :=
  ⟨rfl, rfl, rfl⟩

/-! ### C10: the prefix upper bound never panics for domain-prefixed keys -/

theorem getLast?_isSome_of_cons (a : α) (l : List α) :
    ((a :: l).getLast?).isSome = true := by
  rw [getLast?_cons]
  cases l.getLast? <;> rfl

theorem get_upper_bound_option_isSome (k : Bytes) (b : Nat) (hb : b ∈ k) (hlt : b < 255) :
    (get_upper_bound_option k).isSome = true := by
  unfold get_upper_bound_option
  cases htr : (k.reverse.dropWhile (fun x => decide (255 ≤ x))).reverse with
  | nil =>
    exfalso
    have h0 : k.reverse.dropWhile (fun x => decide (255 ≤ x)) = [] := by
      simpa using congrArg List.reverse htr
    have hall := List.dropWhile_eq_nil_iff.mp h0
    have hbk : b ∈ k.reverse := List.mem_reverse.mpr hb
    have h255 : (255 : Nat) ≤ b := by simpa using hall b hbk
    omega
  | cons a t =>
    have hs := getLast?_isSome_of_cons a t
    cases h2 : (a :: t).getLast? with
    | none => rw [h2] at hs; exact absurd hs (by simp)
    | some last => rfl

theorem writeBatchOps_isSome (start_key : Bytes) (b : Nat) (hb : b ∈ start_key)
    (hlt : b < 255) : ∀ ops : List WriteOperation,
    (writeBatchOps start_key ops).isSome = true := by
  intro ops
  induction ops with
  | nil => rfl
  | cons op rest ih =>
    cases op with
    | Delete key =>
      unfold writeBatchOps
      by_cases hk : check_key_size key
      · rw [if_pos hk]
        cases hr : writeBatchOps start_key rest with
        | none => rw [hr] at ih; exact absurd ih (by simp)
        | some r => cases r <;> rfl
      · rw [if_neg hk]; rfl
    | Put key value =>
      unfold writeBatchOps
      by_cases hk : check_key_size key
      · rw [if_pos hk]
        cases hr : writeBatchOps start_key rest with
        | none => rw [hr] at ih; exact absurd ih (by simp)
        | some r => cases r <;> rfl
      · rw [if_neg hk]; rfl
    | DeletePfx key_pfx =>
      unfold writeBatchOps
      by_cases hk : check_key_size key_pfx
      · rw [if_pos hk]
        have hub := get_upper_bound_option_isSome (start_key ++ key_pfx) b
          (List.mem_append_left _ hb) hlt
        cases hu : get_upper_bound_option (start_key ++ key_pfx) with
        | none => rw [hu] at hub; exact absurd hub (by simp)
        | some upper =>
          cases hr : writeBatchOps start_key rest with
          | none => rw [hr] at ih; exact absurd ih (by simp)
          | some r => cases r <;> rfl
      · rw [if_neg hk]; rfl

/-- C10: for stores opened through `open_shared` / `open_exclusive`
(start key `ROOT_KEY_DOMAIN ++ root_key`, first byte `0`) and for the
stored-root-keys index store (start key `[1]`), `write_batch_internal`
never hits the panicking `expect`: the full prefix of a
`DeletePrefix` begins with a byte below `255`, so
`get_upper_bound_option` always returns a value. -/
theorem write_batch_internal_no_panic (root_key : Bytes) (ops : List WriteOperation)
    (wrk : Bool) :
    rocks_open_shared root_key = .ok ⟨ROOT_KEY_DOMAIN ++ root_key⟩ ∧
    rocks_open_exclusive root_key = .ok ⟨ROOT_KEY_DOMAIN ++ root_key⟩ ∧
    (write_batch_internal (ROOT_KEY_DOMAIN ++ root_key) ops wrk).isSome = true ∧
    (write_batch_internal [STORED_ROOT_KEYS] ops wrk).isSome = true := by
  refine ⟨rfl, rfl, ?_, ?_⟩
  · have h0 : (0 : Nat) ∈ ROOT_KEY_DOMAIN ++ root_key :=
      List.mem_append_left _ (by simp [ROOT_KEY_DOMAIN])
    have hops := writeBatchOps_isSome _ 0 h0 (by omega) ops
    unfold write_batch_internal
    cases hr : writeBatchOps (ROOT_KEY_DOMAIN ++ root_key) ops with
    | none => rw [hr] at hops; exact absurd hops (by simp)
    | some r =>
      cases r with
      | error e => rfl
      | ok l =>
        cases wrk with
        | false => rfl
        | true => rfl
  · have h1 : (1 : Nat) ∈ [STORED_ROOT_KEYS] := by simp [STORED_ROOT_KEYS]
    have hops := writeBatchOps_isSome _ 1 h1 (by omega) ops
    unfold write_batch_internal
    cases hr : writeBatchOps [STORED_ROOT_KEYS] ops with
    | none => rw [hr] at hops; exact absurd hops (by simp)
    | some r =>
      cases r with
      | error e => rfl
      | ok l =>
        cases wrk with
        | false => rfl
        | true => rfl

/-! ### C2: shared-mode slow-path rejection -/

theorem not_feasible_of_oversized (p : Params) (b : SBatch)
    (h : p.maxBatchSize < b.len ∨ p.maxBatchTotalSize < b.numBytes) :
    is_fastpath_feasible p b = false := by
  unfold is_fastpath_feasible
  rcases h with h | h
  · rw [decide_eq_false (Nat.not_le.mpr h)]
    rfl
  · rw [decide_eq_false (Nat.not_le.mpr h), Bool.and_false]

/-- C2: a batch whose operation count exceeds `MAX_BATCH_SIZE` or whose
byte size exceeds `MAX_BATCH_TOTAL_SIZE`, submitted to a shared-mode
store, fails with `JournalRequiresExclusiveAccess`; the state is
unchanged and no backend write is attempted (the schedule is not
consumed). -/
theorem write_batch_shared_oversized (p : Params) (st : KVState) (sched : List Bool)
    (b : SBatch) (h : p.maxBatchSize < b.len ∨ p.maxBatchTotalSize < b.numBytes) :
    write_batch p false st sched b = ⟨some .journalRequiresExclusiveAccess, st, sched⟩ := by
  unfold write_batch
  rw [not_feasible_of_oversized p b h]
  rfl

/-- Witness for C2 at a concrete oversized batch and shared store. -/
theorem write_batch_shared_oversized_witness :
    Params.maxBatchSize ⟨1, 100, 100⟩ < SBatch.len ⟨[], [([1], [9]), ([2], [9])]⟩ ∧
      write_batch ⟨1, 100, 100⟩ false [] [] ⟨[], [([1], [9]), ([2], [9])]⟩ =
        ⟨some .journalRequiresExclusiveAccess, [], []⟩ :=
  ⟨by decide, write_batch_shared_oversized ⟨1, 100, 100⟩ [] []
    ⟨[], [([1], [9]), ([2], [9])]⟩ (Or.inl (by decide))⟩

/-! ### C6: the fast-path feasibility check and dispatch -/

/-- C6: `is_fastpath_feasible` holds exactly when the operation count
is at most `MAX_BATCH_SIZE` and the byte size at most
`MAX_BATCH_TOTAL_SIZE`; `write_batch` takes the direct
single-transaction fast path exactly when it holds, and the fast path
touches no journal key. -/
theorem is_fastpath_feasible_spec (p : Params) (b : SBatch) (excl : Bool)
    (st : KVState) (sched : List Bool) (k : Bytes)
    (hfits : is_fastpath_feasible p b = true)
    (huser : userSB b = true) (hjournal : userKey k = false) :
    (is_fastpath_feasible p b = true ↔
      b.len ≤ p.maxBatchSize ∧ b.numBytes ≤ p.maxBatchTotalSize) ∧
    write_batch p excl st sched b = fastPathWrite st sched b ∧
    (∀ b' : SBatch, is_fastpath_feasible p b' = false →
      write_batch p excl st sched b' = slowPath p excl st sched b') ∧
    kvGet (write_batch p excl st sched b).st k = kvGet st k := by
  refine ⟨?_, ?_, ?_, ?_⟩
  · unfold is_fastpath_feasible
    rw [Bool.and_eq_true, decide_eq_true_eq, decide_eq_true_eq]
  · unfold write_batch
    rw [hfits]
    rfl
  · intro b' hb'
    unfold write_batch
    rw [hb']
    rfl
  · unfold write_batch
    rw [hfits]
    unfold fastPathWrite
    cases hsh : sched.headD true with
    | false => rfl
    | true =>
      show kvGet (applySB st b) k = kvGet st k
      exact kvGet_applyOps_of_untouched _ _ _ fun op ho =>
        userKey_ne _ _ (userSB_ops_key b huser op ho) hjournal

/-- Witness for C6 at a concrete feasible batch. -/
theorem is_fastpath_feasible_spec_witness :
    is_fastpath_feasible ⟨10, 100, 100⟩ ⟨[], [([1], [9])]⟩ = true ∧
      userSB ⟨[], [([1], [9])]⟩ = true ∧ userKey headerKey = false ∧
      write_batch ⟨10, 100, 100⟩ true [] [] ⟨[], [([1], [9])]⟩ =
        fastPathWrite [] [] ⟨[], [([1], [9])]⟩ :=
  ⟨by decide, by decide, by decide,
    (is_fastpath_feasible_spec ⟨10, 100, 100⟩ ⟨[], [([1], [9])]⟩ true [] [] headerKey
      (by decide) (by decide) (by decide)).2.1⟩

/-! ### C3: the resolution procedure -/

/-- C3: one resolution step of `coherently_resolve_journal` with
`block_count = n + 1` reads the block at index `n`, appends a delete
of the block key and either a header insert with count `n` (when
`n > 0`) or a header delete (when `n = 0`), applies the batch as one
backend write, and continues with count `n`; count `0` stops.  Blocks
are therefore consumed highest index first. -/
theorem coherently_resolve_journal_spec (st : KVState) (sched : List Bool) (n : Nat)
    (bytes : Bytes) (blk : SBatch)
    (h1 : kvGet st (entryKey n) = some bytes) (h2 : decodeSB bytes = some blk)
    (h3 : sched.headD true = true) :
    coherently_resolve_journal st sched (n + 1) =
      coherently_resolve_journal (applySB st (resolutionBatch blk n)) sched.tail n ∧
    resolutionBatch blk n =
      ⟨blk.deletions ++ [entryKey n] ++ (if n = 0 then [headerKey] else []),
        blk.insertions ++ (if n = 0 then [] else [(headerKey, encU32 n)])⟩ ∧
    coherently_resolve_journal st sched 0 = ⟨none, st, sched⟩ := by
  refine ⟨?_, ?_, rfl⟩
  · have hstep : coherently_resolve_journal st sched (n + 1) =
        match kvGet st (entryKey n) with
        | none => ⟨some .failureToRetrieveJournalBlock, st, sched⟩
        | some bytes =>
          match decodeSB bytes with
          | none => ⟨some .failureToRetrieveJournalBlock, st, sched⟩
          | some blk =>
            if sched.headD true then
              coherently_resolve_journal (applySB st (resolutionBatch blk n)) sched.tail n
            else ⟨some .backendFailure, st, sched.tail⟩ := rfl
    rw [hstep, h1]
    simp only [h2, h3, if_true]
  · cases n with
    | zero => simp [resolutionBatch, SBatch.add]
    | succ m => simp [resolutionBatch, SBatch.add]

/-- Witness for C3 at a concrete one-block journal. -/
theorem coherently_resolve_journal_spec_witness :
    kvGet [(entryKey 0, encodeSB ⟨[], [([1], [9])]⟩)] (entryKey 0) =
        some (encodeSB ⟨[], [([1], [9])]⟩) ∧
      decodeSB (encodeSB ⟨[], [([1], [9])]⟩) = some ⟨[], [([1], [9])]⟩ ∧
      coherently_resolve_journal [(entryKey 0, encodeSB ⟨[], [([1], [9])]⟩)] [] 1 =
        coherently_resolve_journal
          (applySB [(entryKey 0, encodeSB ⟨[], [([1], [9])]⟩)]
            (resolutionBatch ⟨[], [([1], [9])]⟩ 0)) [] 0 :=
  ⟨by decide, by decide,
    (coherently_resolve_journal_spec [(entryKey 0, encodeSB ⟨[], [([1], [9])]⟩)] [] 0
      (encodeSB ⟨[], [([1], [9])]⟩) ⟨[], [([1], [9])]⟩ (by decide) (by decide) rfl).1⟩

/-! ### C4: a transaction batch exceeding MAX_BATCH_TOTAL_SIZE -/

/-- C4: evaluating `write_journal` on `overflowBatch` (six small
insertions, each well within the per-operation requirements of the
source's own analysis) under `overflowParams`: the batch misses the
fast path, and the first flushed transaction batch written to the
backend has byte size 108, exceeding `MAX_BATCH_TOTAL_SIZE = 100`. -/
theorem write_journal_transaction_exceeds_total_size :
    is_fastpath_feasible overflowParams overflowBatch = false ∧
    SBatch.numBytes ((planWrites overflowParams overflowBatch).getD 0 ⟨[], []⟩) = 108 ∧
    overflowParams.maxBatchTotalSize = 100 ∧
    overflowParams.maxBatchTotalSize <
      SBatch.numBytes ((planWrites overflowParams overflowBatch).getD 0 ⟨[], []⟩) := by
  refine ⟨by decide, by decide, rfl, by decide⟩

/-! ### C5: clear_journal idempotence -/

theorem lastTouch_concat (l : List SOp) (op : SOp) (k : Bytes) :
    lastTouch (l ++ [op]) k = if op.key = k then some op else lastTouch l k := by
  rw [lastTouch_append]
  by_cases h : op.key = k
  · rw [if_pos h, lastTouch_cons, if_pos h, lastTouch_nil]
  · rw [if_neg h, lastTouch_cons, if_neg h, lastTouch_nil]

theorem kvGet_mem (st : KVState) (k v : Bytes) (h : kvGet st k = some v) :
    (k, v) ∈ st := by
  induction st with
  | nil => exact absurd h (by simp [kvGet])
  | cons kv rest ih =>
    obtain ⟨a, b⟩ := kv
    by_cases hak : a = k
    · subst hak
      rw [kvGet, if_pos rfl] at h
      injection h with h
      subst h
      exact List.mem_cons_self _ _
    · rw [kvGet, if_neg hak] at h
      exact List.mem_cons_of_mem _ (ih h)

theorem mem_kvDelete (st : KVState) (k : Bytes) (kv : Bytes × Bytes)
    (h : kv ∈ kvDelete st k) : kv ∈ st := by
  induction st with
  | nil => exact absurd h (by simp [kvDelete])
  | cons hd rest ih =>
    obtain ⟨a, b⟩ := hd
    by_cases hak : a = k
    · rw [kvDelete, if_pos hak] at h
      exact List.mem_cons_of_mem _ (ih h)
    · rw [kvDelete, if_neg hak] at h
      rcases List.mem_cons.mp h with h | h
      · exact h ▸ List.mem_cons_self _ _
      · exact List.mem_cons_of_mem _ (ih h)

theorem mem_applySOp (st : KVState) (op : SOp) (kv : Bytes × Bytes)
    (h : kv ∈ applySOp st op) :
    kv ∈ st ∨ op = .ins kv.1 kv.2 := by
  cases op with
  | del k => exact Or.inl (mem_kvDelete st k kv h)
  | ins k v =>
    rcases List.mem_cons.mp h with h | h
    · subst h
      exact Or.inr rfl
    · exact Or.inl (mem_kvDelete st k kv h)

theorem mem_applyOps (l : List SOp) (st : KVState) (kv : Bytes × Bytes)
    (h : kv ∈ applyOps st l) :
    kv ∈ st ∨ SOp.ins kv.1 kv.2 ∈ l := by
  induction l generalizing st with
  | nil => exact Or.inl h
  | cons op rest ih =>
    have hstep : applyOps st (op :: rest) = applyOps (applySOp st op) rest := rfl
    rw [hstep] at h
    rcases ih (applySOp st op) h with h2 | h2
    · rcases mem_applySOp st op kv h2 with h3 | h3
      · exact Or.inl h3
      · exact Or.inr (h3 ▸ List.mem_cons_self _ _)
    · exact Or.inr (List.mem_cons_of_mem _ h2)

theorem isEntryKey_entryKey (m : Nat) : isEntryKey (entryKey m) = true := rfl

theorem isEntryKey_headerKey : isEntryKey headerKey = false := rfl

theorem userKey_not_entry (k : Bytes) (h : userKey k = true) : isEntryKey k = false := by
  cases k with
  | nil => rfl
  | cons a rest =>
    cases rest with
    | nil =>
      unfold isEntryKey
      cases a with
      | zero => exact absurd h (by simp [userKey, JOURNAL_TAG])
      | succ a' => rfl
    | cons b rest' =>
      unfold isEntryKey
      cases a with
      | zero => exact absurd h (by simp [userKey, JOURNAL_TAG])
      | succ a' => rfl

theorem resolutionBatch_ops_pos (blk : SBatch) (m : Nat) (hm : 0 < m) :
    (resolutionBatch blk m).ops =
      (blk.deletions ++ [entryKey m]).map SOp.del ++
        (blk.insertions ++ [(headerKey, encU32 m)]).map (fun kv => SOp.ins kv.1 kv.2) := by
  unfold resolutionBatch
  rw [if_pos hm]
  rfl

theorem resolutionBatch_ops_zero (blk : SBatch) :
    (resolutionBatch blk 0).ops =
      ((blk.deletions ++ [entryKey 0]) ++ [headerKey]).map SOp.del ++
        blk.insertions.map (fun kv => SOp.ins kv.1 kv.2) := rfl

theorem userSB_inss_untouched (blk : SBatch) (hu : userSB blk = true) (k : Bytes)
    (hk : userKey k = false) :
    ∀ op ∈ blk.insertions.map (fun kv => SOp.ins kv.1 kv.2), SOp.key op ≠ k := by
  intro op ho
  obtain ⟨kv, hkv, rfl⟩ := List.mem_map.1 ho
  unfold userSB at hu
  rw [Bool.and_eq_true, List.all_eq_true, List.all_eq_true] at hu
  exact userKey_ne _ _ (hu.2 kv hkv) hk

theorem resolutionBatch_header_pos (st : KVState) (blk : SBatch) (m : Nat) (hm : 0 < m) :
    kvGet (applySB st (resolutionBatch blk m)) headerKey = some (encU32 m) := by
  unfold applySB
  rw [kvGet_applyOps, resolutionBatch_ops_pos blk m hm]
  simp only [List.map_append, List.map_cons, List.map_nil]
  rw [lastTouch_append, lastTouch_concat,
    if_pos (show (SOp.ins headerKey (encU32 m)).key = headerKey from rfl)]
  rfl

theorem resolutionBatch_header_zero (st : KVState) (blk : SBatch)
    (hu : userSB blk = true) :
    kvGet (applySB st (resolutionBatch blk 0)) headerKey = none := by
  unfold applySB
  rw [kvGet_applyOps, resolutionBatch_ops_zero blk]
  simp only [List.map_append, List.map_cons, List.map_nil]
  rw [lastTouch_append,
    lastTouch_eq_none _ _ (userSB_inss_untouched blk hu headerKey userKey_headerKey),
    lastTouch_concat, if_pos (show (SOp.del headerKey).key = headerKey from rfl)]
  rfl

theorem journalBlocksUser_applySB (st : KVState) (blk : SBatch) (m : Nat)
    (hst : journalBlocksUser st = true) (hu : userSB blk = true) :
    journalBlocksUser (applySB st (resolutionBatch blk m)) = true := by
  unfold journalBlocksUser at hst ⊢
  rw [List.all_eq_true] at hst ⊢
  intro kv hkv
  rcases mem_applyOps _ _ _ hkv with h | h
  · exact hst kv h
  · cases he : isEntryKey kv.1 with
    | false => rfl
    | true =>
      exfalso
      unfold resolutionBatch at h
      rcases List.mem_append.1 (by
          have h2 := h
          rw [SBatch.ops] at h2
          exact h2) with h3 | h3
      · obtain ⟨k, _, hk⟩ := List.mem_map.1 h3
        exact SOp.noConfusion hk
      · obtain ⟨kv2, hkv2, hk⟩ := List.mem_map.1 h3
        have hkey : kv2.1 = kv.1 := congrArg SOp.key hk
        by_cases hmz : 0 < m
        · rw [if_pos hmz] at hkv2
          rcases List.mem_append.1 hkv2 with h4 | h4
          · unfold userSB at hu
            rw [Bool.and_eq_true, List.all_eq_true, List.all_eq_true] at hu
            have := userKey_not_entry kv.1 (hkey ▸ hu.2 kv2 h4)
            rw [he] at this
            exact Bool.noConfusion this
          · have : kv2 = (headerKey, encU32 m) := by simpa using h4
            rw [this] at hkey
            have : isEntryKey kv.1 = false := hkey ▸ isEntryKey_headerKey
            rw [he] at this
            exact Bool.noConfusion this
        · rw [if_neg hmz] at hkv2
          unfold userSB at hu
          rw [Bool.and_eq_true, List.all_eq_true, List.all_eq_true] at hu
          have := userKey_not_entry kv.1 (hkey ▸ hu.2 kv2 hkv2)
          rw [he] at this
          exact Bool.noConfusion this

theorem resolve_step (st : KVState) (sched : List Bool) (n : Nat) :
    coherently_resolve_journal st sched (n + 1) =
      match kvGet st (entryKey n) with
      | none => ⟨some .failureToRetrieveJournalBlock, st, sched⟩
      | some bytes =>
        match decodeSB bytes with
        | none => ⟨some .failureToRetrieveJournalBlock, st, sched⟩
        | some blk =>
          if sched.headD true then
            coherently_resolve_journal (applySB st (resolutionBatch blk n)) sched.tail n
          else ⟨some .backendFailure, st, sched.tail⟩ := rfl

theorem decodeU32_lt (bytes : Bytes) (n : Nat) (h : decodeU32 bytes = some n) :
    n < 4294967296 := by
  rcases bytes with _ | ⟨a, _ | ⟨b, _ | ⟨c, _ | ⟨d, _ | ⟨e, rest⟩⟩⟩⟩⟩
  · exact Option.noConfusion h
  · exact Option.noConfusion h
  · exact Option.noConfusion h
  · exact Option.noConfusion h
  · simp only [decodeU32] at h
    split at h
    · next hcond =>
      obtain ⟨h1, h2, h3, h4⟩ := hcond
      injection h with h5
      omega
    · exact Option.noConfusion h
  · exact Option.noConfusion h

theorem decodeU32_encU32 (n : Nat) : decodeU32 (encU32 n) = some (n % 4294967296) := by
  have h4 : decodeU32 (encU32 n) =
      if n % 256 < 256 ∧ n / 256 % 256 < 256 ∧ n / 65536 % 256 < 256 ∧
          n / 16777216 % 256 < 256 then
        some (n % 256 + 256 * (n / 256 % 256) + 65536 * (n / 65536 % 256) +
          16777216 * (n / 16777216 % 256))
      else none := rfl
  rw [h4, if_pos ⟨Nat.mod_lt _ (by omega), Nat.mod_lt _ (by omega), Nat.mod_lt _ (by omega),
    Nat.mod_lt _ (by omega)⟩]
  congr 1
  omega

theorem journalBlocksUser_block (st : KVState) (hE : journalBlocksUser st = true)
    (m : Nat) (bv : Bytes) (blk : SBatch)
    (hblk : kvGet st (entryKey m) = some bv) (hdec : decodeSB bv = some blk) :
    userSB blk = true := by
  unfold journalBlocksUser at hE
  rw [List.all_eq_true] at hE
  have hmem := kvGet_mem st (entryKey m) bv hblk
  have := hE (entryKey m, bv) hmem
  rw [Bool.or_eq_true] at this
  rcases this with h | h
  · rw [isEntryKey_entryKey] at h
    exact Bool.noConfusion h
  · rw [hdec] at h
    exact h

theorem clear_journal_none (st : KVState) (h : kvGet st headerKey = none) :
    clear_journal st [] = ⟨none, st, []⟩ := by
  unfold clear_journal
  rw [h]

theorem clear_journal_resolve (st : KVState) (bytes : Bytes) (n : Nat)
    (hh : kvGet st headerKey = some bytes) (hd : decodeU32 bytes = some n) :
    clear_journal st [] = coherently_resolve_journal st [] n := by
  unfold clear_journal
  rw [hh]
  simp only [hd]

theorem clear_journal_resolve_fix (n : Nat) :
    ∀ (st : KVState) (bytes : Bytes),
      kvGet st headerKey = some bytes → decodeU32 bytes = some n →
      journalBlocksUser st = true →
      (clear_journal (coherently_resolve_journal st [] n).st []).st =
        (coherently_resolve_journal st [] n).st := by
  induction n with
  | zero =>
    intro st bytes hh hd hE
    show (clear_journal st []).st = st
    rw [clear_journal_resolve st bytes 0 hh hd]
    rfl
  | succ m ih =>
    intro st bytes hh hd hE
    cases hblk : kvGet st (entryKey m) with
    | none =>
      have hstep : coherently_resolve_journal st [] (m + 1) =
          ⟨some .failureToRetrieveJournalBlock, st, []⟩ := by
        rw [resolve_step, hblk]
      rw [hstep]
      show (clear_journal st []).st = st
      rw [clear_journal_resolve st bytes (m + 1) hh hd, hstep]
    | some bv =>
      cases hdec : decodeSB bv with
      | none =>
        have hstep : coherently_resolve_journal st [] (m + 1) =
            ⟨some .failureToRetrieveJournalBlock, st, []⟩ := by
          rw [resolve_step, hblk]
          simp only [hdec]
        rw [hstep]
        show (clear_journal st []).st = st
        rw [clear_journal_resolve st bytes (m + 1) hh hd, hstep]
      | some blk =>
        have hstep : coherently_resolve_journal st [] (m + 1) =
            coherently_resolve_journal (applySB st (resolutionBatch blk m)) [] m := by
          rw [resolve_step, hblk]
          simp only [hdec]
          rfl
        rw [hstep]
        have hu : userSB blk = true := journalBlocksUser_block st hE m bv blk hblk hdec
        have hE' : journalBlocksUser (applySB st (resolutionBatch blk m)) = true :=
          journalBlocksUser_applySB st blk m hE hu
        cases m with
        | zero =>
          have hhd0 : kvGet (applySB st (resolutionBatch blk 0)) headerKey = none :=
            resolutionBatch_header_zero st blk hu
          show (clear_journal (applySB st (resolutionBatch blk 0)) []).st = _
          rw [clear_journal_none _ hhd0]
          rfl
        | succ m' =>
          have hhd1 : kvGet (applySB st (resolutionBatch blk (m' + 1))) headerKey =
              some (encU32 (m' + 1)) :=
            resolutionBatch_header_pos st blk (m' + 1) (by omega)
          have hd1 : decodeU32 (encU32 (m' + 1)) = some (m' + 1) := by
            rw [decodeU32_encU32]
            congr 1
            exact Nat.mod_eq_of_lt (by
              have := decodeU32_lt bytes (m' + 2) hd
              omega)
          exact ih (applySB st (resolutionBatch blk (m' + 1))) (encU32 (m' + 1)) hhd1 hd1 hE'

/-- C5 counterexample: on a state whose journal block itself writes
journal keys (header with `block_count = 1`, block 0 re-inserting the
header and a fresh block 0), the first `clear_journal` succeeds but
leaves a live journal, and a second call applies the planted block:
user key `[1]` differs between one and two calls. -/
theorem clear_journal_not_idempotent_counterexample :
    kvGet (clear_journal cexSt []).st [1] = none ∧
      kvGet (clear_journal (clear_journal cexSt []).st []).st [1] = some [9] ∧
      (clear_journal cexSt []).res = none := by
  refine ⟨by decide, by decide, by decide⟩

/-- C5 (amended): on every store state whose decodable journal blocks
contain only operations on keys outside the reserved journal range
(as every block written by `write_journal` does), `clear_journal` is
idempotent: a second call leaves the state of the first call
unchanged; moreover on a store with no journal header `clear_journal`
succeeds without error and without touching the store. -/
theorem clear_journal_idempotent (st : KVState) (hE : journalBlocksUser st = true) :
    (clear_journal (clear_journal st []).st []).st = (clear_journal st []).st ∧
      (kvGet st headerKey = none → clear_journal st [] = ⟨none, st, []⟩) := by
  refine ⟨?_, clear_journal_none st⟩
  cases hh : kvGet st headerKey with
  | none =>
    rw [clear_journal_none st hh]
    show (clear_journal st []).st = st
    rw [clear_journal_none st hh]
  | some bytes =>
    cases hd : decodeU32 bytes with
    | none =>
      have h1 : clear_journal st [] = ⟨some .failureToRetrieveJournalBlock, st, []⟩ := by
        unfold clear_journal
        rw [hh]
        simp only [hd]
      rw [h1]
      show (clear_journal st []).st = st
      rw [h1]
    | some n =>
      rw [clear_journal_resolve st bytes n hh hd]
      exact clear_journal_resolve_fix n st bytes hh hd hE

/-- Witness for C5 on a concrete clean-block store. -/
theorem clear_journal_idempotent_witness :
    journalBlocksUser [(headerKey, encU32 0)] = true ∧
      (clear_journal (clear_journal [(headerKey, encU32 0)] []).st []).st =
        (clear_journal [(headerKey, encU32 0)] []).st :=
  ⟨by decide, (clear_journal_idempotent [(headerKey, encU32 0)] (by decide)).1⟩

/-! ### C1: codec round trip -/

theorem encNatAux_irrel (n : Nat) : ∀ f1 f2, n < f1 → n < f2 →
    encNatAux f1 n = encNatAux f2 n := by
  induction n using Nat.strong_induction_on with
  | _ n ih =>
    intro f1 f2 h1 h2
    cases f1 with
    | zero => omega
    | succ f1' =>
      cases f2 with
      | zero => omega
      | succ f2' =>
        simp only [encNatAux]
        by_cases hn : n < 128
        · rw [if_pos hn, if_pos hn]
        · rw [if_neg hn, if_neg hn]
          have hdiv : n / 128 < n := Nat.div_lt_self (by omega) (by omega)
          exact congrArg _ (ih (n / 128) hdiv f1' f2' (by omega) (by omega))

theorem encNat_eq (n : Nat) :
    encNat n = if n < 128 then [n] else (128 + n % 128) :: encNat (n / 128) := by
  show encNatAux (n + 1) n = _
  simp only [encNatAux]
  by_cases hn : n < 128
  · rw [if_pos hn, if_pos hn]
  · rw [if_neg hn, if_neg hn]
    have hdiv : n / 128 < n := Nat.div_lt_self (by omega) (by omega)
    exact congrArg _ (encNatAux_irrel (n / 128) n (n / 128 + 1) (by omega) (by omega))

theorem decNat_encNat (n : Nat) : ∀ r : Bytes, decNat (encNat n ++ r) = some (n, r) := by
  induction n using Nat.strong_induction_on with
  | _ n ih =>
    intro r
    rw [encNat_eq]
    by_cases hn : n < 128
    · rw [if_pos hn]
      show decNat (n :: r) = _
      unfold decNat
      rw [if_pos hn]
    · rw [if_neg hn]
      show decNat ((128 + n % 128) :: (encNat (n / 128) ++ r)) = _
      unfold decNat
      rw [if_neg (by omega)]
      have hdiv : n / 128 < n := Nat.div_lt_self (by omega) (by omega)
      rw [ih (n / 128) hdiv r]
      show (if 128 + n % 128 < 256 then
        some ((128 + n % 128 - 128) + 128 * (n / 128), r) else none) = some (n, r)
      rw [if_pos (by omega)]
      congr 2
      omega

theorem decBytes_encBytes (bs : Bytes) (r : Bytes) :
    decBytes (encBytes bs ++ r) = some (bs, r) := by
  unfold decBytes encBytes
  rw [List.append_assoc, decNat_encNat]
  show (if bs.length ≤ (bs ++ r).length then
    some ((bs ++ r).take bs.length, (bs ++ r).drop bs.length) else none) = some (bs, r)
  rw [if_pos (by simp)]
  rw [List.take_left, List.drop_left]

theorem readSeq_enc (xs : List Bytes) : ∀ r : Bytes,
    readSeq xs.length ((xs.map encBytes).flatten ++ r) = some (xs, r) := by
  induction xs with
  | nil => intro r; rfl
  | cons x t ih =>
    intro r
    show readSeq (t.length + 1) (((encBytes x :: t.map encBytes).flatten) ++ r) = _
    rw [List.flatten_cons, List.append_assoc]
    unfold readSeq
    simp only [decBytes_encBytes]
    rw [ih r]

theorem readSeqKV_enc (is : List (Bytes × Bytes)) : ∀ r : Bytes,
    readSeqKV is.length
      ((is.map (fun kv => encBytes kv.1 ++ encBytes kv.2)).flatten ++ r) = some (is, r) := by
  induction is with
  | nil => intro r; rfl
  | cons kv t ih =>
    intro r
    obtain ⟨k, v⟩ := kv
    show readSeqKV (t.length + 1)
      (((encBytes k ++ encBytes v) :: t.map (fun kv => encBytes kv.1 ++ encBytes kv.2)).flatten
        ++ r) = _
    rw [List.flatten_cons, List.append_assoc, List.append_assoc]
    unfold readSeqKV
    simp only [decBytes_encBytes]
    rw [ih r]

theorem readSeqKV_enc_nil (is : List (Bytes × Bytes)) :
    readSeqKV is.length
      ((is.map (fun kv => encBytes kv.1 ++ encBytes kv.2)).flatten) = some (is, []) := by
  have h := readSeqKV_enc is []
  rwa [List.append_nil] at h

theorem decodeSB_encodeSB (b : SBatch) : decodeSB (encodeSB b) = some b := by
  obtain ⟨ds, is⟩ := b
  show decodeSB (encNat ds.length ++ (ds.map encBytes).flatten ++ encNat is.length ++
    (is.map (fun kv => encBytes kv.1 ++ encBytes kv.2)).flatten) = _
  unfold decodeSB
  rw [List.append_assoc, List.append_assoc]
  simp only [decNat_encNat, readSeq_enc, readSeqKV_enc_nil]
  rfl

/-! ### C1: invariants of the write_journal plan -/

theorem planInv_planAddOp (acc : PlanAcc) (op : SOp) (h : PlanInv acc) :
    PlanInv (planAddOp acc op) := h

theorem getD_append_left (l l' : List (List SOp)) (i : Nat) (h : i < l.length) :
    (l ++ l').getD i [] = l.getD i [] := by
  unfold List.getD
  rw [List.get?_append h]

theorem getD_concat_self (l : List (List SOp)) (x : List SOp) :
    (l ++ [x]).getD l.length [] = x := by
  unfold List.getD
  rw [List.get?_concat_length]
  rfl

theorem planInv_planFlushBlock (acc : PlanAcc) (h : PlanInv acc)
    (hne : acc.blockOps ≠ []) : PlanInv (planFlushBlock acc) := by
  obtain ⟨h1, h2, h3⟩ := h
  unfold PlanInv planFlushBlock
  dsimp only
  refine ⟨?_, ?_, ?_⟩
  · rw [← List.append_assoc, h1]
    have hlen : (acc.blocks ++ [acc.blockOps]).length = acc.blocks.length + 1 := by simp
    rw [hlen, List.range_succ, List.map_append]
    congr 1
    · apply List.map_congr_left
      intro i hi
      have hilt : i < acc.blocks.length := List.mem_range.mp hi
      rw [getD_append_left _ _ _ hilt]
    · simp only [List.map_cons, List.map_nil, getD_concat_self]
  · exact h2
  · intro bl hbl
    rcases List.mem_append.1 hbl with h4 | h4
    · exact h3 bl h4
    · have : bl = acc.blockOps := by simpa using h4
      exact this ▸ hne

theorem planInv_planFlushTx (acc : PlanAcc) (h : PlanInv acc) :
    PlanInv (planFlushTx acc) := by
  obtain ⟨h1, h2, h3⟩ := h
  unfold PlanInv planFlushTx
  dsimp only
  refine ⟨?_, ?_, h3⟩
  · simp only [List.map_append, List.map_cons, List.map_nil, List.flatten_append,
      List.flatten_cons, List.flatten_nil, List.append_nil]
    exact h1
  · intro t ht
    rcases List.mem_append.1 ht with h4 | h4
    · exact h2 t h4
    · have h5 : t = ⟨[], acc.txIns⟩ := by simpa using h4
      rw [h5]

theorem planInv_planApply (flags : Bool × Bool) (acc : PlanAcc) (h : PlanInv acc)
    (hne : acc.blockOps ≠ []) : PlanInv (planApply flags acc) := by
  unfold planApply
  cases hf2 : flags.2 with
  | false =>
    rw [if_neg (by simp)]
    cases hf1 : flags.1 with
    | false => rw [if_neg (by simp)]; exact h
    | true => rw [if_pos rfl]; exact planInv_planFlushBlock acc h hne
  | true =>
    rw [if_pos rfl]
    apply planInv_planFlushTx
    cases hf1 : flags.1 with
    | false => rw [if_neg (by simp)]; exact h
    | true => rw [if_pos rfl]; exact planInv_planFlushBlock acc h hne

theorem planInv_planLoop (p : Params) :
    ∀ (l : List SOp) (acc : PlanAcc), PlanInv acc → PlanInv (planLoop p l acc) := by
  intro l
  induction l with
  | nil => intro acc h; exact h
  | cons op rest ih =>
    intro acc h
    show PlanInv (planLoop p rest _)
    apply ih
    apply planInv_planApply _ _ (planInv_planAddOp acc op h)
    show acc.blockOps ++ [op] ≠ []
    simp

theorem mkPlan_inv (p : Params) (b : SBatch) : PlanInv (mkPlan p b) := by
  show PlanInv (planLoop p b.ops ⟨[], 0, [], [], 0, []⟩)
  apply planInv_planLoop
  unfold PlanInv
  exact ⟨rfl, by intro t ht; exact absurd ht (by simp),
    by intro bl hbl; exact absurd hbl (by simp)⟩

theorem q_planFlushBlock (a : PlanAcc) :
    (planFlushBlock a).blocks.flatten ++ (planFlushBlock a).blockOps =
      a.blocks.flatten ++ a.blockOps := by
  show (a.blocks ++ [a.blockOps]).flatten ++ [] = _
  rw [List.append_nil, List.flatten_append, List.flatten_cons, List.flatten_nil,
    List.append_nil]

theorem q_planApply (flags : Bool × Bool) (a : PlanAcc) :
    (planApply flags a).blocks.flatten ++ (planApply flags a).blockOps =
      a.blocks.flatten ++ a.blockOps := by
  unfold planApply
  cases hf2 : flags.2 with
  | false =>
    rw [if_neg (by simp)]
    cases hf1 : flags.1 with
    | false => rw [if_neg (by simp)]
    | true => rw [if_pos rfl]; exact q_planFlushBlock a
  | true =>
    rw [if_pos rfl]
    cases hf1 : flags.1 with
    | false => rw [if_neg (by simp)]; rfl
    | true =>
      rw [if_pos rfl]
      show (planFlushBlock a).blocks.flatten ++ [] = _
      have := q_planFlushBlock a
      rw [show (planFlushBlock a).blockOps = [] from rfl, List.append_nil] at this
      rw [List.append_nil]
      exact this

theorem planLoop_flatten (p : Params) :
    ∀ (l : List SOp) (acc : PlanAcc),
      (planLoop p l acc).blocks.flatten ++ (planLoop p l acc).blockOps =
        acc.blocks.flatten ++ acc.blockOps ++ l := by
  intro l
  induction l with
  | nil => intro acc; rw [List.append_nil]; rfl
  | cons op rest ih =>
    intro acc
    have hstep : planLoop p (op :: rest) acc =
        planLoop p rest (planApply (planFlags p (planAddOp acc op) rest) (planAddOp acc op)) :=
      rfl
    rw [hstep, ih, q_planApply]
    show acc.blocks.flatten ++ (acc.blockOps ++ [op]) ++ rest = _
    rw [← List.append_assoc, List.append_assoc _ [op] rest, List.singleton_append]

theorem planLoop_final_empty (p : Params) :
    ∀ (l : List SOp) (acc : PlanAcc), l ≠ [] →
      (planLoop p l acc).blockOps = [] ∧ (planLoop p l acc).txIns = [] := by
  intro l
  induction l with
  | nil => intro acc h; exact absurd rfl h
  | cons op rest ih =>
    intro acc _
    cases hrest : rest with
    | nil =>
      exact ⟨rfl, rfl⟩
    | cons op2 rest2 =>
      have h2 : rest ≠ [] := by rw [hrest]; simp
      rw [← hrest]
      exact ih _ h2

theorem mkPlan_flatten (p : Params) (b : SBatch) (h : b.ops ≠ []) :
    (mkPlan p b).blocks.flatten = b.ops ∧ (mkPlan p b).txIns = [] := by
  have h1 := planLoop_flatten p b.ops ⟨[], 0, [], [], 0, []⟩
  have h2 := planLoop_final_empty p b.ops ⟨[], 0, [], [], 0, []⟩ h
  refine ⟨?_, h2.2⟩
  rw [h2.1, List.append_nil] at h1
  simpa using h1

theorem mkPlan_blocks_pos (p : Params) (b : SBatch) (h : b.ops ≠ []) :
    0 < (mkPlan p b).blocks.length := by
  rcases hb : (mkPlan p b).blocks with _ | ⟨bl, rest⟩
  · exfalso
    have := (mkPlan_flatten p b h).1
    rw [hb] at this
    exact h (by simpa using this.symm)
  · simp

/-! ### C1: executing the journal writes -/

theorem applyOps_append (st : KVState) (l1 l2 : List SOp) :
    applyOps st (l1 ++ l2) = applyOps (applyOps st l1) l2 := by
  unfold applyOps
  rw [List.foldl_append]

theorem execWrites_success (ws : List SBatch) : ∀ (st : KVState) (sched : List Bool),
    (execWrites st sched ws).res = none →
    (execWrites st sched ws).st = applyOps st ((ws.map SBatch.ops).flatten) := by
  induction ws with
  | nil => intro st sched _; rfl
  | cons w rest ih =>
    intro st sched hres
    unfold execWrites at hres ⊢
    cases hsh : sched.headD true with
    | false =>
      rw [hsh] at hres
      exact absurd hres (by simp)
    | true =>
      rw [hsh] at hres
      rw [if_pos rfl] at hres ⊢
      rw [ih _ _ hres, List.map_cons, List.flatten_cons, applyOps_append]
      rfl

theorem execWrites_user_preserved (ws : List SBatch)
    (hw : ∀ w ∈ ws, w.deletions = [] ∧ ∀ kv ∈ w.insertions, userKey kv.1 = false) :
    ∀ (st : KVState) (sched : List Bool) (k : Bytes), userKey k = true →
      kvGet (execWrites st sched ws).st k = kvGet st k := by
  induction ws with
  | nil => intro st sched k _; rfl
  | cons w rest ih =>
    intro st sched k hk
    unfold execWrites
    cases hsh : sched.headD true with
    | false => rfl
    | true =>
      rw [if_pos rfl]
      have hw1 := hw w (by simp)
      have hstep : kvGet (applySB st w) k = kvGet st k := by
        apply kvGet_applyOps_of_untouched
        intro op ho
        unfold SBatch.ops at ho
        rcases List.mem_append.1 ho with h | h
        · rw [hw1.1] at h
          exact absurd h (by simp)
        · obtain ⟨kv, hkv, rfl⟩ := List.mem_map.1 h
          intro he
          have := hw1.2 kv hkv
          rw [show (SOp.ins kv.1 kv.2).key = kv.1 from rfl] at he
          rw [he, hk] at this
          exact Bool.noConfusion this
      rw [ih (fun w hw2 => hw w (by simp [hw2])) (applySB st w) sched.tail k hk, hstep]

theorem entryKey_digits (i j : Nat) (hi : i < 4294967296) (hj : j < 4294967296)
    (h : entryKey i = entryKey j) : i = j := by
  unfold entryKey get_journaling_key encU32 at h
  simp only [List.cons.injEq] at h
  omega

theorem entryKey_ne (i j : Nat) (hi : i < 4294967296) (hj : j < 4294967296)
    (hne : i ≠ j) : entryKey i ≠ entryKey j :=
  fun h => hne (entryKey_digits i j hi hj h)

theorem headerKey_ne_entryKey (i : Nat) : headerKey ≠ entryKey i := by
  intro h
  unfold headerKey entryKey get_journaling_key at h
  simp [encU32] at h

theorem lastTouch_entry_range (g : Nat → Bytes) :
    ∀ (N i : Nat), i < N → N ≤ 4294967296 →
    lastTouch ((List.range N).map (fun j => SOp.ins (entryKey j) (g j))) (entryKey i) =
      some (.ins (entryKey i) (g i)) := by
  intro N
  induction N with
  | zero => intro i hi _; omega
  | succ N ih =>
    intro i hi hN
    rw [List.range_succ, List.map_append, List.map_cons, List.map_nil, lastTouch_concat]
    by_cases hiN : i = N
    · subst hiN
      rw [if_pos (show (SOp.ins (entryKey i) (g i)).key = entryKey i from rfl)]
    · rw [if_neg (by
        show (SOp.ins (entryKey N) (g N)).key ≠ entryKey i
        show entryKey N ≠ entryKey i
        exact entryKey_ne N i (by omega) (by omega) (fun h => hiN h.symm))]
      exact ih i (by omega) (by omega)

theorem lastTouch_entry_range_user (g : Nat → Bytes) (N : Nat) (k : Bytes)
    (hk : userKey k = true) :
    lastTouch ((List.range N).map (fun j => SOp.ins (entryKey j) (g j))) k = none := by
  apply lastTouch_eq_none
  intro op ho
  obtain ⟨j, _, rfl⟩ := List.mem_map.1 ho
  show entryKey j ≠ k
  intro he
  have h2 := userKey_entryKey j
  rw [he, hk] at h2
  exact Bool.noConfusion h2

/-! ### C1: batch shape and the state after write_journal -/

theorem foldl_add_dels (ds : List Bytes) : ∀ (d0 : List Bytes) (i0 : List (Bytes × Bytes)),
    List.foldl SBatch.add ⟨d0, i0⟩ (ds.map SOp.del) = ⟨d0 ++ ds, i0⟩ := by
  induction ds with
  | nil => intro d0 i0; simp
  | cons x t ih =>
    intro d0 i0
    rw [List.map_cons, List.foldl_cons]
    show List.foldl SBatch.add ⟨d0 ++ [x], i0⟩ (t.map SOp.del) = _
    rw [ih]
    simp

theorem foldl_add_inss (is : List (Bytes × Bytes)) :
    ∀ (d0 : List Bytes) (i0 : List (Bytes × Bytes)),
    List.foldl SBatch.add ⟨d0, i0⟩ (is.map (fun kv => SOp.ins kv.1 kv.2)) =
      ⟨d0, i0 ++ is⟩ := by
  induction is with
  | nil => intro d0 i0; simp
  | cons x t ih =>
    intro d0 i0
    rw [List.map_cons, List.foldl_cons]
    show List.foldl SBatch.add ⟨d0, i0 ++ [x]⟩ (t.map _) = _
    rw [ih]
    simp

theorem sbOfOps_shape (ds : List Bytes) (is : List (Bytes × Bytes)) :
    sbOfOps (ds.map SOp.del ++ is.map (fun kv => SOp.ins kv.1 kv.2)) = ⟨ds, is⟩ := by
  unfold sbOfOps
  rw [List.foldl_append, foldl_add_dels, foldl_add_inss]
  simp

theorem sbOfOps_ops (c : List SOp) (h : Shaped c) : (sbOfOps c).ops = c := by
  obtain ⟨ds, is, rfl⟩ := h
  rw [sbOfOps_shape]
  rfl

theorem userSB_of_ops (b : SBatch) (h : ∀ op ∈ b.ops, userKey op.key = true) :
    userSB b = true := by
  unfold userSB
  rw [Bool.and_eq_true, List.all_eq_true, List.all_eq_true]
  constructor
  · intro k hk
    exact h (.del k) (by unfold SBatch.ops; exact List.mem_append_left _ (List.mem_map.2 ⟨k, hk, rfl⟩))
  · intro kv hkv
    exact h (.ins kv.1 kv.2)
      (by unfold SBatch.ops; exact List.mem_append_right _ (List.mem_map.2 ⟨kv, hkv, rfl⟩))

theorem txs_ops_flatten (txs : List SBatch) (h : ∀ t ∈ txs, t.deletions = []) :
    (txs.map SBatch.ops).flatten =
      ((txs.map SBatch.insertions).flatten).map (fun kv => SOp.ins kv.1 kv.2) := by
  induction txs with
  | nil => rfl
  | cons t rest ih =>
    rw [List.map_cons, List.flatten_cons, List.map_cons, List.flatten_cons, List.map_append]
    congr 1
    · show t.ops = _
      unfold SBatch.ops
      rw [h t (by simp), List.map_nil, List.nil_append]
    · exact ih fun t' ht' => h t' (by simp [ht'])

theorem planWrites_eq (p : Params) (b : SBatch) (h : b.ops ≠ []) :
    planWrites p b = (mkPlan p b).txs ++
      [⟨[], [(headerKey, encU32 (mkPlan p b).blocks.length)]⟩] := by
  unfold planWrites
  dsimp only
  rw [if_pos (mkPlan_blocks_pos p b h)]

theorem length_le_flatten (L : List (List SOp)) (h : ∀ x ∈ L, x ≠ []) :
    L.length ≤ L.flatten.length := by
  induction L with
  | nil => simp
  | cons a t ih =>
    rw [List.flatten_cons, List.length_cons, List.length_append]
    have ha : a ≠ [] := h a (by simp)
    have : 1 ≤ a.length := by
      cases a with
      | nil => exact absurd rfl ha
      | cons x xs => simp
    have := ih fun x hx => h x (by simp [hx])
    omega

theorem blocks_le_ops (p : Params) (b : SBatch) (h : b.ops ≠ []) :
    (mkPlan p b).blocks.length ≤ b.ops.length := by
  have h1 := (mkPlan_flatten p b h).1
  have h2 := (mkPlan_inv p b).2.2
  calc (mkPlan p b).blocks.length ≤ (mkPlan p b).blocks.flatten.length :=
        length_le_flatten _ h2
    _ = b.ops.length := by rw [h1]

theorem SBatch_ops_length (b : SBatch) : b.ops.length = b.len := by
  unfold SBatch.ops SBatch.len
  rw [List.length_append, List.length_map, List.length_map]

theorem write_journal_ops (p : Params) (b : SBatch) (h : b.ops ≠ []) :
    ((planWrites p b).map SBatch.ops).flatten =
      (List.range (mkPlan p b).blocks.length).map
        (fun i => SOp.ins (entryKey i)
          (encodeSB (sbOfOps ((mkPlan p b).blocks.getD i [])))) ++
      [SOp.ins headerKey (encU32 (mkPlan p b).blocks.length)] := by
  rw [planWrites_eq p b h, List.map_append, List.flatten_append]
  congr 1
  · rw [txs_ops_flatten _ (mkPlan_inv p b).2.1]
    have h1 := (mkPlan_inv p b).1
    rw [(mkPlan_flatten p b h).2, List.append_nil] at h1
    rw [h1, List.map_map]
    rfl

theorem write_journal_success_state (p : Params) (b : SBatch) (st : KVState)
    (sched : List Bool) (hops : b.ops ≠ [])
    (hN : (mkPlan p b).blocks.length ≤ 4294967296)
    (hres : (write_journal p st sched b).res = none) :
    (∀ i, i < (mkPlan p b).blocks.length →
      kvGet (write_journal p st sched b).st (entryKey i) =
        some (encodeSB (sbOfOps ((mkPlan p b).blocks.getD i [])))) ∧
    (∀ k, userKey k = true →
      kvGet (write_journal p st sched b).st k = kvGet st k) := by
  have hst : (write_journal p st sched b).st =
      applyOps st (((planWrites p b).map SBatch.ops).flatten) :=
    execWrites_success _ _ _ hres
  rw [hst, write_journal_ops p b hops]
  constructor
  · intro i hi
    rw [kvGet_applyOps, lastTouch_concat,
      if_neg (show (SOp.ins headerKey (encU32 (mkPlan p b).blocks.length)).key ≠ entryKey i
        from headerKey_ne_entryKey i),
      lastTouch_entry_range _ _ i hi hN]
    rfl
  · intro k hk
    rw [kvGet_applyOps, lastTouch_concat,
      if_neg (show (SOp.ins headerKey (encU32 (mkPlan p b).blocks.length)).key ≠ k from
        userKey_ne k headerKey hk userKey_headerKey |>.symm),
      lastTouch_entry_range_user _ _ k hk]
    rfl

/-! ### C1: the resolution pass -/

theorem resolutionBatch_untouched (st : KVState) (blk : SBatch) (m : Nat)
    (hu : userSB blk = true) (k : Bytes) (hk1 : userKey k = false)
    (hk2 : k ≠ entryKey m) (hk3 : k ≠ headerKey) :
    kvGet (applySB st (resolutionBatch blk m)) k = kvGet st k := by
  apply kvGet_applyOps_of_untouched
  intro op ho
  unfold userSB at hu
  rw [Bool.and_eq_true, List.all_eq_true, List.all_eq_true] at hu
  have huser : ∀ key : Bytes, userKey key = true → key ≠ k := fun key hkey =>
    userKey_ne key k hkey hk1
  cases hm : m with
  | zero =>
    rw [hm] at ho
    rw [resolutionBatch_ops_zero] at ho
    rcases List.mem_append.1 ho with h | h
    · obtain ⟨dk, hdk, rfl⟩ := List.mem_map.1 h
      rcases List.mem_append.1 hdk with h2 | h2
      · rcases List.mem_append.1 h2 with h3 | h3
        · exact fun he => huser dk (hu.1 dk h3) he
        · have : dk = entryKey 0 := by simpa using h3
          subst this
          exact fun he => hk2 (hm ▸ he.symm)
      · have : dk = headerKey := by simpa using h2
        subst this
        exact fun he => hk3 he.symm
    · obtain ⟨kv, hkv, rfl⟩ := List.mem_map.1 h
      exact fun he => huser kv.1 (hu.2 kv hkv) he
  | succ m' =>
    rw [hm] at ho
    rw [resolutionBatch_ops_pos blk (m' + 1) (by omega)] at ho
    rcases List.mem_append.1 ho with h | h
    · obtain ⟨dk, hdk, rfl⟩ := List.mem_map.1 h
      rcases List.mem_append.1 hdk with h2 | h2
      · exact fun he => huser dk (hu.1 dk h2) he
      · have : dk = entryKey (m' + 1) := by simpa using h2
        subst this
        exact fun he => hk2 (hm ▸ he.symm)
    · obtain ⟨kv, hkv, rfl⟩ := List.mem_map.1 h
      rcases List.mem_append.1 hkv with h2 | h2
      · exact fun he => huser kv.1 (hu.2 kv h2) he
      · have : kv = (headerKey, encU32 (m' + 1)) := by simpa using h2
        subst this
        exact fun he => hk3 he.symm

theorem lastTouch_resolutionBatch_user (blk : SBatch) (m : Nat) (k : Bytes)
    (hk : userKey k = true) :
    lastTouch (resolutionBatch blk m).ops k = lastTouch blk.ops k := by
  have hek : ∀ i : Nat, (SOp.del (entryKey i)).key ≠ k := fun i =>
    (userKey_ne k (entryKey i) hk (userKey_entryKey i)).symm
  have hhk : ∀ v : Bytes, (SOp.ins headerKey v).key ≠ k := fun v =>
    (userKey_ne k headerKey hk userKey_headerKey).symm
  have hhkd : (SOp.del headerKey).key ≠ k :=
    (userKey_ne k headerKey hk userKey_headerKey).symm
  cases m with
  | zero =>
    rw [resolutionBatch_ops_zero]
    simp only [List.map_append, List.map_cons, List.map_nil]
    conv_lhs => rw [lastTouch_append]
    conv_rhs => rw [show blk.ops = blk.deletions.map SOp.del ++
      blk.insertions.map (fun kv => SOp.ins kv.1 kv.2) from rfl, lastTouch_append]
    rw [lastTouch_concat, if_neg hhkd, lastTouch_concat, if_neg (hek 0)]
  | succ m' =>
    rw [resolutionBatch_ops_pos blk (m' + 1) (by omega)]
    simp only [List.map_append, List.map_cons, List.map_nil]
    conv_lhs => rw [lastTouch_append]
    conv_rhs => rw [show blk.ops = blk.deletions.map SOp.del ++
      blk.insertions.map (fun kv => SOp.ins kv.1 kv.2) from rfl, lastTouch_append]
    rw [lastTouch_concat, if_neg (hhk (encU32 (m' + 1))), lastTouch_concat,
      if_neg (hek (m' + 1))]

theorem resolutionBatch_user_eq (st : KVState) (blk : SBatch) (m : Nat) (k : Bytes)
    (hk : userKey k = true) :
    kvGet (applySB st (resolutionBatch blk m)) k = kvGet (applyOps st blk.ops) k := by
  unfold applySB
  rw [kvGet_applyOps, kvGet_applyOps, lastTouch_resolutionBatch_user blk m k hk]

theorem revFlatten_zero (chunks : List (List SOp)) : revFlatten chunks 0 = [] := rfl

theorem revFlatten_succ (chunks : List (List SOp)) (m : Nat) (h : m < chunks.length) :
    revFlatten chunks (m + 1) = chunks.getD m [] ++ revFlatten chunks m := by
  unfold revFlatten
  rw [List.take_succ]
  cases hc : chunks[m]? with
  | none =>
    exfalso
    rw [List.getElem?_eq_none_iff] at hc
    omega
  | some c =>
    have hgd : chunks.getD m [] = c := by
      unfold List.getD
      rw [List.get?_eq_getElem?, hc]
      rfl
    rw [hgd, List.reverse_append, List.flatten_append]
    simp

theorem getD_mem (l : List (List SOp)) (i : Nat) (h : i < l.length) :
    l.getD i [] ∈ l := by
  unfold List.getD
  rw [List.get?_eq_getElem?, List.getElem?_eq_getElem h]
  exact List.getElem_mem h

theorem resolve_success (chunks : List (List SOp)) (hlen : chunks.length ≤ 4294967296)
    (hShape : ∀ c ∈ chunks, Shaped c)
    (hUser : ∀ c ∈ chunks, ∀ op ∈ c, userKey op.key = true) :
    ∀ (m : Nat), m ≤ chunks.length → ∀ (st : KVState) (sched : List Bool),
      (∀ i, i < m → kvGet st (entryKey i) = some (encodeSB (sbOfOps (chunks.getD i [])))) →
      (coherently_resolve_journal st sched m).res = none →
      (∀ k, userKey k = true →
        kvGet (coherently_resolve_journal st sched m).st k =
          kvGet (applyOps st (revFlatten chunks m)) k) ∧
      (0 < m → kvGet (coherently_resolve_journal st sched m).st headerKey = none) := by
  intro m
  induction m with
  | zero =>
    intro _ st sched _ _
    exact ⟨fun k _ => rfl, fun h => absurd h (by omega)⟩
  | succ m ih =>
    intro hm st sched hentries hres
    have hmlt : m < chunks.length := by omega
    have hmem : chunks.getD m [] ∈ chunks := getD_mem chunks m hmlt
    have hshape_m : Shaped (chunks.getD m []) := hShape _ hmem
    have huser_m : ∀ op ∈ chunks.getD m [], userKey op.key = true := hUser _ hmem
    have hblk_ops : (sbOfOps (chunks.getD m [])).ops = chunks.getD m [] :=
      sbOfOps_ops _ hshape_m
    have huserSB : userSB (sbOfOps (chunks.getD m [])) = true := by
      apply userSB_of_ops
      rw [hblk_ops]
      exact huser_m
    have hget := hentries m (by omega)
    rw [resolve_step, hget] at hres ⊢
    simp only [decodeSB_encodeSB] at hres ⊢
    by_cases hsh : sched.headD true = true
    case neg =>
      rw [if_neg hsh] at hres
      exact absurd hres (by simp)
    case pos =>
      rw [if_pos hsh] at hres ⊢
      have hentries' : ∀ i, i < m →
          kvGet (applySB st (resolutionBatch (sbOfOps (chunks.getD m [])) m)) (entryKey i) =
            some (encodeSB (sbOfOps (chunks.getD i []))) := by
        intro i hi
        rw [resolutionBatch_untouched st _ m huserSB (entryKey i) (userKey_entryKey i)
          (entryKey_ne i m (by omega) (by omega) (by omega))
          (fun he => headerKey_ne_entryKey i he.symm)]
        exact hentries i (by omega)
      have hih := ih (by omega) _ sched.tail hentries' hres
      constructor
      · intro k hk
        rw [hih.1 k hk, revFlatten_succ chunks m hmlt, applyOps_append,
          kvGet_applyOps, kvGet_applyOps]
        congr 1
        rw [resolutionBatch_user_eq st _ m k hk, hblk_ops]
      · intro _
        cases m with
        | zero =>
          show kvGet (applySB st (resolutionBatch (sbOfOps (chunks.getD 0 [])) 0)) headerKey
            = none
          exact resolutionBatch_header_zero st _ huserSB
        | succ m2 => exact hih.2 (by omega)

/-! ### C1: permutation and shape lemmas -/

theorem perm_eq_of_length_le_one {α : Type _} (l l' : List α) (h : l.Perm l')
    (hl : l.length ≤ 1) : l = l' := by
  cases l with
  | nil => exact (List.perm_nil.mp h.symm).symm
  | cons a t =>
    cases t with
    | cons b t2 => simp at hl
    | nil => exact (List.perm_singleton.mp h.symm).symm

theorem filter_key_length_le_one (l : List SOp) (k : Bytes)
    (h : (l.map SOp.key).Nodup) :
    (l.filter (fun op => decide (op.key = k))).length ≤ 1 := by
  induction l with
  | nil => simp
  | cons op rest ih =>
    rw [List.map_cons, List.nodup_cons] at h
    rw [List.filter_cons]
    by_cases hk : op.key = k
    · rw [if_pos (by simp [hk])]
      have hnil : rest.filter (fun op => decide (op.key = k)) = [] := by
        rw [List.filter_eq_nil_iff]
        intro a ha
        simp only [decide_eq_true_eq]
        intro hak
        exact h.1 (List.mem_map.2 ⟨a, ha, by rw [hak, hk]⟩)
      rw [hnil]
      simp
    · rw [if_neg (by simp [hk])]
      exact ih h.2

theorem lastTouch_perm (l l' : List SOp) (hperm : l.Perm l') (k : Bytes)
    (hnodup : (l.map SOp.key).Nodup) : lastTouch l k = lastTouch l' k := by
  unfold lastTouch
  rw [perm_eq_of_length_le_one _ _ (hperm.filter _) (filter_key_length_le_one l k hnodup)]

theorem flatten_reverse_perm (L : List (List SOp)) : L.reverse.flatten.Perm L.flatten := by
  induction L with
  | nil => exact List.Perm.refl _
  | cons a t ih =>
    rw [List.reverse_cons, List.flatten_append, List.flatten_cons]
    have hstep : (t.reverse.flatten ++ a).Perm (a ++ t.flatten) :=
      List.Perm.trans List.perm_append_comm (ih.append_left a)
    simpa using hstep

theorem revFlatten_perm (chunks : List (List SOp)) :
    (revFlatten chunks chunks.length).Perm chunks.flatten := by
  unfold revFlatten
  rw [List.take_length]
  exact flatten_reverse_perm chunks

theorem map_eq_append_split {α β : Type _} (f : α → β) :
    ∀ (x : List β) (l : List α) (y : List β), l.map f = x ++ y →
      ∃ l1 l2, l = l1 ++ l2 ∧ l1.map f = x ∧ l2.map f = y := by
  intro x
  induction x with
  | nil => intro l y h; exact ⟨[], l, rfl, rfl, by simpa using h⟩
  | cons c xs ih =>
    intro l y h
    cases l with
    | nil => simp at h
    | cons a t =>
      rw [List.map_cons, List.cons_append] at h
      have h1 : f a = c := (List.cons.injEq _ _ _ _ ▸ h).1
      have h2 : t.map f = xs ++ y := (List.cons.injEq _ _ _ _ ▸ h).2
      obtain ⟨l1, l2, rfl, hm1, hm2⟩ := ih t y h2
      exact ⟨a :: l1, l2, rfl, by rw [List.map_cons, hm1, h1], hm2⟩

theorem shaped_split (x y : List SOp) (h : Shaped (x ++ y)) : Shaped x ∧ Shaped y := by
  obtain ⟨ds, is, heq⟩ := h
  rcases List.append_eq_append_iff.mp heq.symm with ⟨a', ha1, ha2⟩ | ⟨c', hc1, hc2⟩
  · obtain ⟨i1, i2, rfl, hm1, hm2⟩ := map_eq_append_split _ a' is y ha2
    constructor
    · exact ⟨ds, i1, by rw [ha1, hm1]⟩
    · exact ⟨[], i2, by simp [hm2]⟩
  · obtain ⟨d1, d2, rfl, hm1, hm2⟩ := map_eq_append_split SOp.del x ds c' hc1
    constructor
    · exact ⟨d1, [], by simp [hm1]⟩
    · exact ⟨d2, is, by rw [hc2, hm2]⟩

theorem shaped_flatten (L : List (List SOp)) (h : Shaped L.flatten) :
    ∀ c ∈ L, Shaped c := by
  induction L with
  | nil => intro c hc; exact absurd hc (by simp)
  | cons a t ih =>
    rw [List.flatten_cons] at h
    have hsp := shaped_split a t.flatten h
    intro c hc
    rcases List.mem_cons.1 hc with rfl | hc2
    · exact hsp.1
    · exact ih hsp.2 c hc2

theorem shaped_ops (b : SBatch) : Shaped b.ops := ⟨b.deletions, b.insertions, rfl⟩

/-! ### C1: assembling the atomicity theorem -/

theorem planWrites_journal_only (p : Params) (b : SBatch) :
    ∀ w ∈ planWrites p b, w.deletions = [] ∧ ∀ kv ∈ w.insertions, userKey kv.1 = false := by
  intro w hw
  unfold planWrites at hw
  dsimp only at hw
  rcases List.mem_append.1 hw with h | h
  · constructor
    · exact (mkPlan_inv p b).2.1 w h
    · intro kv hkv
      have hmem : kv ∈ ((mkPlan p b).txs.map SBatch.insertions).flatten ++
          (mkPlan p b).txIns :=
        List.mem_append_left _
          (List.mem_flatten.2 ⟨w.insertions, List.mem_map.2 ⟨w, h, rfl⟩, hkv⟩)
    
      rw [(mkPlan_inv p b).1] at hmem
      obtain ⟨i, _, hkv_eq⟩ := List.mem_map.1 hmem
      rw [← hkv_eq]
      exact userKey_entryKey i
  · by_cases hb : (mkPlan p b).blocks.length > 0
    · rw [if_pos hb] at h
      have hwv : w = ⟨[], [(headerKey, encU32 (mkPlan p b).blocks.length)]⟩ := by
        simpa using h
      rw [hwv]
      refine ⟨rfl, ?_⟩
      intro kv hkv
      have hkv' : kv = (headerKey, encU32 (mkPlan p b).blocks.length) := by simpa using hkv
      rw [hkv']
      exact userKey_headerKey
    · rw [if_neg hb] at h
      exact absurd h (by simp)

theorem ops_ne_nil_of_not_feasible (p : Params) (b : SBatch)
    (h : is_fastpath_feasible p b = false) : b.ops ≠ [] := by
  intro he
  unfold is_fastpath_feasible at h
  have h1 : b.len = 0 := by rw [← SBatch_ops_length, he]; rfl
  have h2 : b.numBytes = 0 := by unfold SBatch.numBytes; rw [he]; rfl
  rw [h1, h2] at h
  simp at h

theorem write_batch_feasible_eq (p : Params) (excl : Bool) (st : KVState)
    (sched : List Bool) (b : SBatch) (h : is_fastpath_feasible p b = true) :
    write_batch p excl st sched b = fastPathWrite st sched b := by
  unfold write_batch
  rw [h]
  rfl

theorem write_batch_slow_eq (p : Params) (excl : Bool) (st : KVState)
    (sched : List Bool) (b : SBatch) (h : is_fastpath_feasible p b = false) :
    write_batch p excl st sched b = slowPath p excl st sched b := by
  unfold write_batch
  rw [h]
  rfl

theorem slowPath_eq (p : Params) (st : KVState) (sched : List Bool) (b : SBatch) :
    slowPath p true st sched b =
      match (write_journal p st sched b).res with
      | some e => ⟨some e, (write_journal p st sched b).st, (write_journal p st sched b).sched⟩
      | none => coherently_resolve_journal (write_journal p st sched b).st
          (write_journal p st sched b).sched (mkPlan p b).blocks.length := rfl

/-- C1: `write_batch` is atomic for user data on a store with no stale
journal header, for the simplified batches `from_batch` produces (user
keys only, pairwise-distinct keys, fewer than `2^32` operations): on
success the user-visible state is exactly the batch applied to the
initial state and no journal header remains; a fast-path failure
leaves the store untouched; a failure during the journal-write phase
of the slow path leaves every user key untouched. -/
theorem write_batch_atomic (p : Params) (st : KVState) (sched : List Bool) (b : SBatch)
    (hU : userSB b = true) (hN : keysNodup b) (hlen : b.len < 4294967296)
    (hH : kvGet st headerKey = none) :
    ((write_batch p true st sched b).res = none →
      (∀ k, userKey k = true →
        kvGet (write_batch p true st sched b).st k = kvGet (applySB st b) k) ∧
      kvGet (write_batch p true st sched b).st headerKey = none) ∧
    (is_fastpath_feasible p b = true → (write_batch p true st sched b).res.isSome = true →
      (write_batch p true st sched b).st = st) ∧
    ((execWrites st sched (planWrites p b)).res.isSome = true →
      ∀ k, userKey k = true →
        kvGet (execWrites st sched (planWrites p b)).st k = kvGet st k) := by
  refine ⟨?_, ?_, ?_⟩
  · intro hres
    by_cases hfeas : is_fastpath_feasible p b = true
    · rw [write_batch_feasible_eq p true st sched b hfeas] at hres ⊢
      unfold fastPathWrite at hres ⊢
      by_cases hsh : sched.headD true = true
      · rw [if_pos hsh]
        refine ⟨fun k _ => rfl, ?_⟩
        show kvGet (applyOps st b.ops) headerKey = none
        have huntouched : ∀ op ∈ b.ops, op.key ≠ headerKey := by
          intro op ho he
          have hop := userSB_ops_key b hU op ho
          rw [he, userKey_headerKey] at hop
          exact Bool.noConfusion hop
        rw [kvGet_applyOps_of_untouched _ _ _ huntouched]
        exact hH
      · rw [if_neg hsh] at hres
        exact absurd hres (by simp)
    · have hfeasf : is_fastpath_feasible p b = false := by
        revert hfeas
        cases is_fastpath_feasible p b <;> simp
      rw [write_batch_slow_eq p true st sched b hfeasf, slowPath_eq] at hres ⊢
      cases hwres : (write_journal p st sched b).res with
      | some e =>
        simp only [hwres] at hres
        exact Option.noConfusion hres
      | none =>
        simp only [hwres] at hres ⊢
        have hops : b.ops ≠ [] := ops_ne_nil_of_not_feasible p b hfeasf
        have hNle : (mkPlan p b).blocks.length ≤ 4294967296 := by
          have h1 := blocks_le_ops p b hops
          have h2 := SBatch_ops_length b
          omega
        have hw := write_journal_success_state p b st sched hops hNle hwres
        have hflat := (mkPlan_flatten p b hops).1
        have hShape : ∀ c ∈ (mkPlan p b).blocks, Shaped c := by
          apply shaped_flatten
          rw [hflat]
          exact shaped_ops b
        have hUserC : ∀ c ∈ (mkPlan p b).blocks, ∀ op ∈ c, userKey op.key = true := by
          intro c hc op ho
          exact userSB_ops_key b hU op (by rw [← hflat]; exact List.mem_flatten.2 ⟨c, hc, ho⟩)
        have hrs := resolve_success (mkPlan p b).blocks hNle hShape hUserC
          (mkPlan p b).blocks.length le_rfl (write_journal p st sched b).st
          (write_journal p st sched b).sched hw.1 hres
        constructor
        · intro k hk
          rw [hrs.1 k hk]
          have hperm :
              (revFlatten (mkPlan p b).blocks (mkPlan p b).blocks.length).Perm b.ops := by
            have hrp := revFlatten_perm (mkPlan p b).blocks
            rw [hflat] at hrp
            exact hrp
          have hnd : ((revFlatten (mkPlan p b).blocks
              (mkPlan p b).blocks.length).map SOp.key).Nodup :=
            ((hperm.map SOp.key).nodup_iff).mpr hN
          rw [kvGet_applyOps, lastTouch_perm _ b.ops hperm k hnd, hw.2 k hk,
            ← kvGet_applyOps]
          rfl
        · exact hrs.2 (mkPlan_blocks_pos p b hops)
  · intro hfeas hsome
    rw [write_batch_feasible_eq p true st sched b hfeas] at hsome ⊢
    unfold fastPathWrite at hsome ⊢
    by_cases hsh : sched.headD true = true
    · rw [if_pos hsh] at hsome
      exact absurd hsome (by simp)
    · rw [if_neg hsh]
  · intro _ k hk
    exact execWrites_user_preserved (planWrites p b) (planWrites_journal_only p b)
      st sched k hk

/-- C1 counterexample to the unconditional claim: on a store already
holding a stale journal header, a fast-path `write_batch` succeeds,
yet the journal header is still present afterwards. The guarantee
needs the precondition that no journal header exists initially. -/
theorem write_batch_success_header_remains_counterexample :
    (write_batch slowParams true dirtyHeaderSt [] ⟨[], [([5], [6])]⟩).res = none ∧
    kvGet (write_batch slowParams true dirtyHeaderSt [] ⟨[], [([5], [6])]⟩).st headerKey
      = some (encU32 1) := by decide

theorem write_batch_atomic_witness :
    ((write_batch slowParams true [] [] slowBatch).res = none →
      (∀ k, userKey k = true →
        kvGet (write_batch slowParams true [] [] slowBatch).st k =
          kvGet (applySB [] slowBatch) k) ∧
      kvGet (write_batch slowParams true [] [] slowBatch).st headerKey = none) ∧
    (is_fastpath_feasible slowParams slowBatch = true →
      (write_batch slowParams true [] [] slowBatch).res.isSome = true →
      (write_batch slowParams true [] [] slowBatch).st = []) ∧
    ((execWrites [] [] (planWrites slowParams slowBatch)).res.isSome = true →
      ∀ k, userKey k = true →
        kvGet (execWrites [] [] (planWrites slowParams slowBatch)).st k =
          kvGet ([] : KVState) k) :=
  write_batch_atomic slowParams [] [] slowBatch (by decide)
    (by unfold keysNodup; decide) (by decide) rfl
